import Mathlib

/-!
Verification of the PoB consensus core (block cache / tx pool / PoB engine /
protobuf codecs) of the go-iost repository, as a shallow embedding in Lean 4.

Go byte slices are modelled as `List Nat` (each element a byte value), Go
`int64`/`int32` as `Int` with explicit two's-complement casts where the code
casts, Go maps keyed by hashes as association lists, and fallible Go functions
as `Except`/`Option` results.  External collaborators that are out of scope for
the repository (crypto primitives, the VM, the versioned DB) appear as
parameters (oracles) of the embedded functions.
-/

namespace GoIost

/-! ### Two's-complement casts (Go `uint64(x)` / `int64`, `int32` wrapping) -/

/-- Go's `uint64(i)` for a signed integer `i`: two's-complement reinterpretation. -/
def toUnsigned (w : Nat) (i : Int) : Nat :=
  (i % ((2 : Int) ^ w)).toNat

/-- Reinterpret the low `w` bits of a natural number as a signed `w`-bit integer
(the effect of Go's wrapping accumulation into an `int64`/`int32` variable). -/
def toSigned (w : Nat) (n : Nat) : Int :=
  if n % 2 ^ w < 2 ^ (w - 1) then ((n % 2 ^ w : Nat) : Int)
  else ((n % 2 ^ w : Nat) : Int) - (2 : Int) ^ w

theorem toUnsigned_lt (w : Nat) (i : Int) : toUnsigned w i < 2 ^ w := by
  unfold toUnsigned
  have h2 : (0 : Int) < 2 ^ w := by positivity
  have hlt := Int.emod_lt_of_pos i (b := (2 : Int) ^ w) h2
  have hnn := Int.emod_nonneg i (by omega : ((2 : Int) ^ w) ≠ 0)
  have hcast : ((2 : Int) ^ w) = ((2 ^ w : Nat) : Int) := by push_cast; ring
  omega

theorem toSigned_toUnsigned (w : Nat) (i : Int)
    (hlo : -(2 : Int) ^ (w - 1) ≤ i) (hhi : i < 2 ^ (w - 1)) (hw : 1 ≤ w) :
    toSigned w (toUnsigned w i) = i := by
  unfold toSigned toUnsigned
  have h2 : (0 : Int) < 2 ^ w := by positivity
  have hnn := Int.emod_nonneg i (by omega : ((2 : Int) ^ w) ≠ 0)
  have hlt := Int.emod_lt_of_pos i (b := (2 : Int) ^ w) h2
  have hww : (2 : Int) ^ w = 2 ^ (w - 1) * 2 := by
    rw [← pow_succ]
    congr 1
    omega
  have hcast : (((i % ((2 : Int) ^ w)).toNat : Int)) = i % ((2 : Int) ^ w) :=
    Int.toNat_of_nonneg hnn
  have hmodsmall : ((i % ((2 : Int) ^ w)).toNat) % 2 ^ w = (i % ((2 : Int) ^ w)).toNat := by
    apply Nat.mod_eq_of_lt
    have : ((2 : Int) ^ w) = ((2 ^ w : Nat) : Int) := by push_cast; ring
    omega
  rw [hmodsmall]
  rcases le_or_lt 0 i with hpos | hneg
  · have : i % ((2 : Int) ^ w) = i := Int.emod_eq_of_lt hpos (by omega)
    rw [this] at hcast ⊢
    have hsm : (i.toNat) < 2 ^ (w - 1) := by
      have : ((2 : Int) ^ (w - 1)) = ((2 ^ (w - 1) : Nat) : Int) := by push_cast; ring
      omega
    simp only [if_pos hsm]
    omega
  · have : i % ((2 : Int) ^ w) = i + (2 : Int) ^ w := by
      have : (i + (2 : Int) ^ w) % ((2 : Int) ^ w) = i % ((2 : Int) ^ w) := by
        simp [Int.add_mul_emod_self_left]
      rw [← this]
      apply Int.emod_eq_of_lt <;> omega
    rw [this] at hcast ⊢
    have hns : ¬ ((i + (2 : Int) ^ w).toNat < 2 ^ (w - 1)) := by
      have : ((2 : Int) ^ (w - 1)) = ((2 ^ (w - 1) : Nat) : Int) := by push_cast; ring
      omega
    simp only [if_neg hns]
    omega

/-! ### core/tx/tx.pb.go — gogo-protobuf varint primitives (claim C8) -/

/-- Structural-fuel worker for `encodeVarintTx` (the fuel only makes the
recursion structural so the kernel can evaluate it; `encodeVarintTx_eq`
recovers the loop of the source). -/
def encodeVarintGo (fuel v : Nat) : List Nat :=
  match fuel with
  | 0 => []
  | fuel + 1 => if 128 ≤ v then (v % 128 + 128) :: encodeVarintGo fuel (v / 128) else [v]

/-- `encodeVarintTx` of tx.pb.go: little-endian base-128 varint encoding
(the bytes appended to `dAtA`). -/
def encodeVarintTx (v : Nat) : List Nat :=
  encodeVarintGo (v + 1) v

theorem encodeVarintGo_irrel (v : Nat) : ∀ f1 f2, v < f1 → v < f2 →
    encodeVarintGo f1 v = encodeVarintGo f2 v := by
  induction v using Nat.strong_induction_on with
  | _ v ih =>
    intro f1 f2 h1 h2
    match f1, f2 with
    | a + 1, b + 1 =>
      unfold encodeVarintGo
      by_cases h : 128 ≤ v
      · simp only [if_pos h]
        congr 1
        have hd := Nat.div_lt_self (show 0 < v by omega) (show 1 < 128 by omega)
        exact ih (v / 128) hd a b (by omega) (by omega)
      · simp [if_neg h]

/-- The defining loop of `encodeVarintTx` in tx.pb.go
(`for v >= 1<<7 { dAtA[offset] = v&0x7f|0x80; v >>= 7; offset++ }`). -/
theorem encodeVarintTx_eq (v : Nat) :
    encodeVarintTx v = if 128 ≤ v then (v % 128 + 128) :: encodeVarintTx (v / 128) else [v] := by
  show encodeVarintGo (v + 1) v = _
  unfold encodeVarintGo
  by_cases h : 128 ≤ v
  · simp only [if_pos h]
    congr 1
    have hd := Nat.div_lt_self (show 0 < v by omega) (show 1 < 128 by omega)
    exact encodeVarintGo_irrel (v / 128) v (v / 128 + 1) (by omega) (by omega)
  · simp [if_neg h]

/-- Structural-fuel worker for `sovTx`. -/
def sovTxGo (fuel x : Nat) : Nat :=
  match fuel with
  | 0 => 0
  | fuel + 1 => if 128 ≤ x then 1 + sovTxGo fuel (x / 128) else 1

/-- `sovTx` of tx.pb.go: the byte length of the varint encoding. -/
def sovTx (x : Nat) : Nat :=
  sovTxGo (x + 1) x

theorem sovTxGo_irrel (x : Nat) : ∀ f1 f2, x < f1 → x < f2 →
    sovTxGo f1 x = sovTxGo f2 x := by
  induction x using Nat.strong_induction_on with
  | _ x ih =>
    intro f1 f2 h1 h2
    match f1, f2 with
    | a + 1, b + 1 =>
      unfold sovTxGo
      by_cases h : 128 ≤ x
      · simp only [if_pos h]
        have hd := Nat.div_lt_self (show 0 < x by omega) (show 1 < 128 by omega)
        rw [ih (x / 128) hd a b (by omega) (by omega)]
      · simp [if_neg h]

/-- The defining loop of `sovTx` in tx.pb.go. -/
theorem sovTx_eq (x : Nat) :
    sovTx x = if 128 ≤ x then 1 + sovTx (x / 128) else 1 := by
  show sovTxGo (x + 1) x = _
  unfold sovTxGo
  by_cases h : 128 ≤ x
  · simp only [if_pos h]
    have hd := Nat.div_lt_self (show 0 < x by omega) (show 1 < 128 by omega)
    rw [sovTxGo_irrel (x / 128) x (x / 128 + 1) (by omega) (by omega)]
    rfl
  · simp [if_neg h]

/-- Errors of the generated unmarshalling code.  `fuel` is an artefact of the
embedding's explicit recursion bound (the Go loops are unbounded). -/
inductive PErr where
  | eof
  | overflow
  | badWire
  | endGroup
  | illegalTag
  | illegalWireType
  | fuel
deriving DecidableEq, Repr

instance {ε α : Type} [DecidableEq ε] [DecidableEq α] : DecidableEq (Except ε α) := fun x y =>
  match x, y with
  | Except.ok a, Except.ok b =>
    if h : a = b then Decidable.isTrue (by rw [h]) else Decidable.isFalse (by simp [h])
  | Except.error a, Except.error b =>
    if h : a = b then Decidable.isTrue (by rw [h]) else Decidable.isFalse (by simp [h])
  | Except.ok _, Except.error _ => Decidable.isFalse (by simp)
  | Except.error _, Except.ok _ => Decidable.isFalse (by simp)

/-- The varint-reading loop that the generated code inlines everywhere:
`wire |= (uint64(b) & 0x7F) << shift` with the `shift >= 64` overflow check
and the EOF check.  The Go accumulation is into a 64-bit register, hence the
`% 2 ^ 64`. -/
def decodeVarintE (l : List Nat) (shift acc : Nat) : Except PErr (Nat × List Nat) :=
  if 64 ≤ shift then Except.error PErr.overflow
  else
    match l with
    | [] => Except.error PErr.eof
    | b :: rest =>
      let acc2 := (acc + b % 128 * 2 ^ shift) % 2 ^ 64
      if b < 128 then Except.ok (acc2, rest)
      else decodeVarintE rest (shift + 7) acc2

theorem encodeVarintTx_ne_nil (v : Nat) : encodeVarintTx v ≠ [] := by
  rw [encodeVarintTx_eq]
  split <;> simp

theorem sovTx_eq_length (v : Nat) : sovTx v = (encodeVarintTx v).length := by
  rw [sovTx_eq, encodeVarintTx_eq]
  by_cases h : 128 ≤ v
  · simp only [if_pos h, List.length_cons]
    rw [sovTx_eq_length (v / 128)]
    omega
  · simp [if_neg h]
termination_by v
decreasing_by exact Nat.div_lt_self (by omega) (by omega)

theorem decodeVarintE_cons_small (b : Nat) (rest : List Nat) (hb : b < 128) :
    decodeVarintE (b :: rest) 0 0 = Except.ok (b, rest) := by
  unfold decodeVarintE
  simp only [show ¬ (64 ≤ 0) by omega, if_false, if_pos hb]
  rw [Nat.mod_eq_of_lt hb]
  simp only [Nat.zero_add, Nat.pow_zero, Nat.mul_one]
  rw [Nat.mod_eq_of_lt (by omega : b < 2 ^ 64)]

theorem decodeVarintE_encode_aux (v : Nat) : ∀ (shift acc : Nat) (rest : List Nat),
    shift ≤ 63 → acc < 2 ^ shift → v < 2 ^ (64 - shift) →
    decodeVarintE (encodeVarintTx v ++ rest) shift acc =
      Except.ok (acc + v * 2 ^ shift, rest) := by
  induction v using Nat.strong_induction_on with
  | _ v ih =>
    intro shift acc rest hshift hacc hv
    rw [encodeVarintTx_eq]
    by_cases h : 128 ≤ v
    · -- continuation byte
      rw [if_pos h]
      have hshift56 : shift ≤ 56 := by
        by_contra hgt
        have h64 : 64 - shift ≤ 7 := by omega
        have : (2 : Nat) ^ (64 - shift) ≤ 2 ^ 7 := Nat.pow_le_pow_right (by omega) h64
        omega
      have hb : ¬ (v % 128 + 128 < 128) := by omega
      have hbmod : (v % 128 + 128) % 128 = v % 128 := by omega
      have hlt : acc + v % 128 * 2 ^ shift < 2 ^ (shift + 7) := by
        have h1 : v % 128 ≤ 127 := by omega
        have h2 : v % 128 * 2 ^ shift ≤ 127 * 2 ^ shift :=
          Nat.mul_le_mul_right _ h1
        have : (2 : Nat) ^ (shift + 7) = 2 ^ shift * 128 := by
          rw [pow_add]; norm_num
        omega
      have hlt64 : acc + v % 128 * 2 ^ shift < 2 ^ 64 := by
        have : (2 : Nat) ^ (shift + 7) ≤ 2 ^ 64 := Nat.pow_le_pow_right (by omega) (by omega)
        omega
      simp only [List.cons_append]
      unfold decodeVarintE
      simp only [if_neg (by omega : ¬ 64 ≤ shift), hbmod, if_neg hb]
      rw [Nat.mod_eq_of_lt hlt64]
      have hrec := ih (v / 128) (Nat.div_lt_self (by omega) (by omega))
        (shift + 7) (acc + v % 128 * 2 ^ shift) rest (by omega) hlt
        (by
          have hdiv : v / 128 < 2 ^ (64 - shift) / 128 + 1 := by
            have := Nat.div_le_div_right (c := 128) (Nat.le_of_lt_succ (Nat.lt_succ_of_lt hv))
            omega
          have : (2 : Nat) ^ (64 - shift) / 128 = 2 ^ (64 - (shift + 7)) := by
            have hsub : 64 - shift = (64 - (shift + 7)) + 7 := by omega
            rw [hsub, pow_add]
            norm_num
          have hpow : v / 128 < 2 ^ (64 - (shift + 7)) ∨
              v / 128 = 2 ^ (64 - (shift + 7)) ∨ 2 ^ (64 - (shift + 7)) < v / 128 := by
            omega
          rcases hpow with hc | hc | hc
          · exact hc
          · exfalso
            have : 2 ^ (64 - (shift + 7)) * 128 ≤ v := by
              calc 2 ^ (64 - (shift + 7)) * 128 = v / 128 * 128 := by rw [hc]
                _ ≤ v := Nat.div_mul_le_self v 128
            have heq : (2 : Nat) ^ (64 - shift) = 2 ^ (64 - (shift + 7)) * 128 := by
              have hsub : 64 - shift = (64 - (shift + 7)) + 7 := by omega
              rw [hsub, pow_add]
              norm_num
            omega
          · exfalso
            have : 2 ^ (64 - (shift + 7)) * 128 ≤ v / 128 * 128 := by
              exact Nat.mul_le_mul_right _ (by omega)
            have hle : v / 128 * 128 ≤ v := Nat.div_mul_le_self v 128
            have heq : (2 : Nat) ^ (64 - shift) = 2 ^ (64 - (shift + 7)) * 128 := by
              have hsub : 64 - shift = (64 - (shift + 7)) + 7 := by omega
              rw [hsub, pow_add]
              norm_num
            omega)
      rw [hrec]
      have hkey : acc + v % 128 * 2 ^ shift + v / 128 * 2 ^ (shift + 7) = acc + v * 2 ^ shift := by
        have hmul : v % 128 * 2 ^ shift + v / 128 * 2 ^ (shift + 7) = v * 2 ^ shift := by
          have hpow : (2 : Nat) ^ (shift + 7) = 2 ^ shift * 128 := by
            rw [pow_add]; norm_num
          rw [hpow]
          nlinarith [Nat.div_add_mod v 128]
        omega
      rw [hkey]
    · -- final byte, v < 128
      rw [if_neg h]
      have hv128 : v < 128 := by omega
      simp only [List.cons_append, List.nil_append]
      unfold decodeVarintE
      have hfin : acc + v % 128 * 2 ^ shift < 2 ^ 64 := by
        rw [Nat.mod_eq_of_lt hv128]
        have h2 : (v + 1) * 2 ^ shift = v * 2 ^ shift + 2 ^ shift := by ring
        have h3 : (v + 1) * 2 ^ shift ≤ 2 ^ (64 - shift) * 2 ^ shift :=
          Nat.mul_le_mul_right _ (by omega)
        have h4 : (2 : Nat) ^ (64 - shift) * 2 ^ shift = 2 ^ 64 := by
          rw [← pow_add]
          congr 1
          omega
        omega
      simp only [if_neg (by omega : ¬ 64 ≤ shift), if_pos hv128]
      rw [Nat.mod_eq_of_lt hfin, Nat.mod_eq_of_lt hv128]

theorem decodeVarintE_encode (v : Nat) (rest : List Nat) (hv : v < 2 ^ 64) :
    decodeVarintE (encodeVarintTx v ++ rest) 0 0 = Except.ok (v, rest) := by
  have := decodeVarintE_encode_aux v 0 0 rest (by omega) (by norm_num) (by simpa using hv)
  simpa using this

/-! ### core/tx/tx.pb.go — message records, Marshal and Size -/

/-- `tx.ActionRaw` (Go strings are byte lists here; `unrecognized` models
`XXX_unrecognized`, with a nil slice identified with the empty one). -/
structure ActionRaw where
  contract : List Nat
  actionName : List Nat
  data : List Nat
  unrecognized : List Nat
deriving DecidableEq, Repr

def ActionRaw.empty : ActionRaw :=
  { contract := [], actionName := [], data := [], unrecognized := [] }

/-- Modelled from the spec: `crypto.SignatureRaw` of the external crypto
collaborator (spec §1 puts account/keypair cryptography out of scope; §3 gives
the transaction `signatures[]` field).  A generated protobuf message of the
same shape as those of tx.pb.go, with an `int32` algorithm tag (field 1,
varint) and signature and public-key bytes (fields 2 and 3). -/
structure SignatureRaw where
  algorithm : Int
  sig : List Nat
  pubKey : List Nat
  unrecognized : List Nat
deriving DecidableEq, Repr

def SignatureRaw.empty : SignatureRaw :=
  { algorithm := 0, sig := [], pubKey := [], unrecognized := [] }

/-- `tx.TxRaw`. -/
structure TxRaw where
  time : Int
  expiration : Int
  gasLimit : Int
  gasPrice : Int
  actions : List ActionRaw
  signers : List (List Nat)
  signs : List SignatureRaw
  publisher : Option SignatureRaw
  unrecognized : List Nat
deriving DecidableEq, Repr

def TxRaw.empty : TxRaw :=
  { time := 0, expiration := 0, gasLimit := 0, gasPrice := 0, actions := [],
    signers := [], signs := [], publisher := none, unrecognized := [] }

/-- `ActionRaw.MarshalTo`: the byte sequence written. -/
def marshalActionRaw (m : ActionRaw) : List Nat :=
  (if m.contract.length > 0 then 10 :: (encodeVarintTx m.contract.length ++ m.contract) else [])
  ++ (if m.actionName.length > 0 then 18 :: (encodeVarintTx m.actionName.length ++ m.actionName) else [])
  ++ (if m.data.length > 0 then 26 :: (encodeVarintTx m.data.length ++ m.data) else [])
  ++ m.unrecognized

/-- `ActionRaw.Size`. -/
def sizeActionRaw (m : ActionRaw) : Nat :=
  (if m.contract.length > 0 then 1 + m.contract.length + sovTx m.contract.length else 0)
  + (if m.actionName.length > 0 then 1 + m.actionName.length + sovTx m.actionName.length else 0)
  + (if m.data.length > 0 then 1 + m.data.length + sovTx m.data.length else 0)
  + m.unrecognized.length

/-- `SignatureRaw.MarshalTo` (modelled from the spec, same generated shape). -/
def marshalSignatureRaw (m : SignatureRaw) : List Nat :=
  (if m.algorithm ≠ 0 then 8 :: encodeVarintTx (toUnsigned 64 m.algorithm) else [])
  ++ (if m.sig.length > 0 then 18 :: (encodeVarintTx m.sig.length ++ m.sig) else [])
  ++ (if m.pubKey.length > 0 then 26 :: (encodeVarintTx m.pubKey.length ++ m.pubKey) else [])
  ++ m.unrecognized

/-- `SignatureRaw.Size` (modelled from the spec, same generated shape). -/
def sizeSignatureRaw (m : SignatureRaw) : Nat :=
  (if m.algorithm ≠ 0 then 1 + sovTx (toUnsigned 64 m.algorithm) else 0)
  + (if m.sig.length > 0 then 1 + m.sig.length + sovTx m.sig.length else 0)
  + (if m.pubKey.length > 0 then 1 + m.pubKey.length + sovTx m.pubKey.length else 0)
  + m.unrecognized.length

/-- `TxRaw.MarshalTo`. -/
def marshalTxRaw (m : TxRaw) : List Nat :=
  (if m.time ≠ 0 then 8 :: encodeVarintTx (toUnsigned 64 m.time) else [])
  ++ (if m.expiration ≠ 0 then 16 :: encodeVarintTx (toUnsigned 64 m.expiration) else [])
  ++ (if m.gasLimit ≠ 0 then 24 :: encodeVarintTx (toUnsigned 64 m.gasLimit) else [])
  ++ (if m.gasPrice ≠ 0 then 32 :: encodeVarintTx (toUnsigned 64 m.gasPrice) else [])
  ++ List.flatten (m.actions.map fun a => 42 :: (encodeVarintTx (sizeActionRaw a) ++ marshalActionRaw a))
  ++ List.flatten (m.signers.map fun b => 50 :: (encodeVarintTx b.length ++ b))
  ++ List.flatten (m.signs.map fun s => 58 :: (encodeVarintTx (sizeSignatureRaw s) ++ marshalSignatureRaw s))
  ++ (match m.publisher with
      | some s => 66 :: (encodeVarintTx (sizeSignatureRaw s) ++ marshalSignatureRaw s)
      | none => [])
  ++ m.unrecognized

theorem sizeActionRaw_eq_length (m : ActionRaw) :
    sizeActionRaw m = (marshalActionRaw m).length := by
  unfold sizeActionRaw marshalActionRaw
  by_cases h1 : m.contract.length > 0 <;>
    by_cases h2 : m.actionName.length > 0 <;>
      by_cases h3 : m.data.length > 0 <;>
        simp [h1, h2, h3, sovTx_eq_length] <;> omega

theorem sizeSignatureRaw_eq_length (m : SignatureRaw) :
    sizeSignatureRaw m = (marshalSignatureRaw m).length := by
  unfold sizeSignatureRaw marshalSignatureRaw
  by_cases h1 : m.algorithm ≠ 0 <;>
    by_cases h2 : m.sig.length > 0 <;>
      by_cases h3 : m.pubKey.length > 0 <;>
        simp [h1, h2, h3, sovTx_eq_length] <;> omega

/-! ### Unknown protobuf fields and `skipTx` -/

/-- One well-formed unknown field: a tag (field number, wire type) plus a
payload of the matching shape.  Wire type 3 (start group) is deliberately not
representable: groups are legacy protobuf that no gogo-generated writer emits. -/
inductive UnknownField where
  | varintF (fieldNum : Nat) (v : Nat)
  | fixed64F (fieldNum : Nat) (b : List Nat)
  | bytesF (fieldNum : Nat) (payload : List Nat)
  | fixed32F (fieldNum : Nat) (b : List Nat)
deriving DecidableEq, Repr

def encodeUnknownField : UnknownField → List Nat
  | UnknownField.varintF f v => encodeVarintTx (f * 8) ++ encodeVarintTx v
  | UnknownField.fixed64F f b => encodeVarintTx (f * 8 + 1) ++ b
  | UnknownField.bytesF f p => encodeVarintTx (f * 8 + 2) ++ (encodeVarintTx p.length ++ p)
  | UnknownField.fixed32F f b => encodeVarintTx (f * 8 + 5) ++ b

def encodeUnknownFields (l : List UnknownField) : List Nat :=
  List.flatten (l.map encodeUnknownField)

/-- Well-formedness of an unknown field whose number must be at least `lo`
(`lo` = one past the highest known field of the enclosing message). -/
def validUnknownField (lo : Nat) : UnknownField → Bool
  | UnknownField.varintF f v => decide (lo ≤ f ∧ f < 2 ^ 31 ∧ v < 2 ^ 64)
  | UnknownField.fixed64F f b => decide (lo ≤ f ∧ f < 2 ^ 31 ∧ b.length = 8)
  | UnknownField.bytesF f p => decide (lo ≤ f ∧ f < 2 ^ 31 ∧ p.length < 2 ^ 64)
  | UnknownField.fixed32F f b => decide (lo ≤ f ∧ f < 2 ^ 31 ∧ b.length = 4)

/-- The varint-skipping loop of `skipTx` case 0 (no value is accumulated);
returns the number of bytes skipped. -/
def skipVarint (l : List Nat) (shift : Nat) : Except PErr Nat :=
  if 64 ≤ shift then Except.error PErr.overflow
  else
    match l with
    | [] => Except.error PErr.eof
    | b :: rest =>
      if b < 128 then Except.ok 1
      else (skipVarint rest (shift + 7)).map (· + 1)

/-- `skipTx` of tx.pb.go: length (from the start of the tag) of the field to
skip.  `inGroup = true` is the inner loop of wire type 3 (scan items until an
end-group tag).  `fuel` bounds the group nesting / item recursion only; no
realistic input exhausts it (the callers pass the input length). -/
def skipTxAux : Nat → Bool → List Nat → Except PErr Nat
  | 0, _, _ => Except.error PErr.fuel
  | fuel + 1, false, l =>
    match decodeVarintE l 0 0 with
    | Except.error e => Except.error e
    | Except.ok (wire, rest) =>
      let consumed := l.length - rest.length
      if wire % 8 = 0 then (skipVarint rest 0).map (fun m => consumed + m)
      else if wire % 8 = 1 then Except.ok (consumed + 8)
      else if wire % 8 = 2 then
        match decodeVarintE rest 0 0 with
        | Except.error e => Except.error e
        | Except.ok (len, rest2) => Except.ok (consumed + (rest.length - rest2.length) + len)
      else if wire % 8 = 3 then
        (skipTxAux fuel true rest).map (fun m => consumed + m)
      else if wire % 8 = 4 then Except.ok consumed
      else if wire % 8 = 5 then Except.ok (consumed + 4)
      else Except.error PErr.illegalWireType
  | fuel + 1, true, l =>
    match decodeVarintE l 0 0 with
    | Except.error e => Except.error e
    | Except.ok (innerWire, rest) =>
      if innerWire % 8 = 4 then Except.ok (l.length - rest.length)
      else
        match skipTxAux fuel false l with
        | Except.error e => Except.error e
        | Except.ok n => (skipTxAux fuel true (l.drop n)).map (fun m => n + m)

theorem skipVarint_encode_aux (v : Nat) : ∀ (shift : Nat) (rest : List Nat),
    shift ≤ 63 → v < 2 ^ (64 - shift) →
    skipVarint (encodeVarintTx v ++ rest) shift = Except.ok (encodeVarintTx v).length := by
  induction v using Nat.strong_induction_on with
  | _ v ih =>
    intro shift rest hshift hv
    rw [encodeVarintTx_eq]
    by_cases h : 128 ≤ v
    · rw [if_pos h]
      have hshift56 : shift ≤ 56 := by
        by_contra hgt
        have h64 : 64 - shift ≤ 7 := by omega
        have : (2 : Nat) ^ (64 - shift) ≤ 2 ^ 7 := Nat.pow_le_pow_right (by omega) h64
        omega
      have hb : ¬ (v % 128 + 128 < 128) := by omega
      simp only [List.cons_append]
      unfold skipVarint
      simp only [if_neg (by omega : ¬ 64 ≤ shift), if_neg hb]
      have hdivlt : v / 128 < 2 ^ (64 - (shift + 7)) := by
        have hpow : (2 : Nat) ^ (64 - shift) = 2 ^ (64 - (shift + 7)) * 128 := by
          have hsub : 64 - shift = (64 - (shift + 7)) + 7 := by omega
          rw [hsub, pow_add]
          norm_num
        rcases Nat.lt_or_ge (v / 128) (2 ^ (64 - (shift + 7))) with hc | hc
        · exact hc
        · exfalso
          have : 2 ^ (64 - (shift + 7)) * 128 ≤ v / 128 * 128 := Nat.mul_le_mul_right _ hc
          have hle : v / 128 * 128 ≤ v := Nat.div_mul_le_self v 128
          omega
      rw [ih (v / 128) (Nat.div_lt_self (by omega) (by omega)) (shift + 7) rest (by omega) hdivlt]
      simp [List.length_cons, Except.map]
    · rw [if_neg h]
      simp only [List.cons_append, List.nil_append]
      unfold skipVarint
      simp only [if_neg (by omega : ¬ 64 ≤ shift), if_pos (by omega : v < 128)]
      simp

theorem skipVarint_encode (v : Nat) (rest : List Nat) (hv : v < 2 ^ 64) :
    skipVarint (encodeVarintTx v ++ rest) 0 = Except.ok (encodeVarintTx v).length :=
  skipVarint_encode_aux v 0 rest (by omega) (by simpa using hv)

/-! ### core/tx/tx.pb.go — Unmarshal loops

Each Go `Unmarshal` is a `for iNdEx < l` loop; the embedding makes the
recursion explicit with a fuel bound (each iteration consumes at least one
byte, so fuel = input length never runs out; the callers pass exactly that). -/

/-- `ActionRaw.Unmarshal`'s field loop. -/
def unmActLoop : Nat → ActionRaw → List Nat → Except PErr ActionRaw
  | _, m, [] => Except.ok m
  | 0, _, _ :: _ => Except.error PErr.fuel
  | fuel + 1, m, l =>
    match decodeVarintE l 0 0 with
    | Except.error e => Except.error e
    | Except.ok (wire, rest) =>
      let fieldNum : Int := toSigned 32 (wire / 8 % 2 ^ 32)
      let wireType : Nat := wire % 8
      if wireType = 4 then Except.error PErr.endGroup
      else if fieldNum ≤ 0 then Except.error PErr.illegalTag
      else if fieldNum = 1 then
        if wireType ≠ 2 then Except.error PErr.badWire
        else
          match decodeVarintE rest 0 0 with
          | Except.error e => Except.error e
          | Except.ok (len, rest2) =>
            if rest2.length < len then Except.error PErr.eof
            else unmActLoop fuel { m with contract := rest2.take len } (rest2.drop len)
      else if fieldNum = 2 then
        if wireType ≠ 2 then Except.error PErr.badWire
        else
          match decodeVarintE rest 0 0 with
          | Except.error e => Except.error e
          | Except.ok (len, rest2) =>
            if rest2.length < len then Except.error PErr.eof
            else unmActLoop fuel { m with actionName := rest2.take len } (rest2.drop len)
      else if fieldNum = 3 then
        if wireType ≠ 2 then Except.error PErr.badWire
        else
          match decodeVarintE rest 0 0 with
          | Except.error e => Except.error e
          | Except.ok (len, rest2) =>
            if rest2.length < len then Except.error PErr.eof
            else unmActLoop fuel { m with data := rest2.take len } (rest2.drop len)
      else
        match skipTxAux l.length false l with
        | Except.error e => Except.error e
        | Except.ok skippy =>
          if l.length < skippy then Except.error PErr.eof
          else unmActLoop fuel { m with unrecognized := m.unrecognized ++ l.take skippy }
            (l.drop skippy)

/-- `ActionRaw.Unmarshal`. -/
def unmarshalActionRaw (l : List Nat) : Except PErr ActionRaw :=
  unmActLoop l.length ActionRaw.empty l

/-- `SignatureRaw.Unmarshal`'s field loop (modelled from the spec, same
generated shape as the tx.pb.go loops; field 1 accumulates into an `int32`). -/
def unmSigLoop : Nat → SignatureRaw → List Nat → Except PErr SignatureRaw
  | _, m, [] => Except.ok m
  | 0, _, _ :: _ => Except.error PErr.fuel
  | fuel + 1, m, l =>
    match decodeVarintE l 0 0 with
    | Except.error e => Except.error e
    | Except.ok (wire, rest) =>
      let fieldNum : Int := toSigned 32 (wire / 8 % 2 ^ 32)
      let wireType : Nat := wire % 8
      if wireType = 4 then Except.error PErr.endGroup
      else if fieldNum ≤ 0 then Except.error PErr.illegalTag
      else if fieldNum = 1 then
        if wireType ≠ 0 then Except.error PErr.badWire
        else
          match decodeVarintE rest 0 0 with
          | Except.error e => Except.error e
          | Except.ok (v, rest2) =>
            unmSigLoop fuel { m with algorithm := toSigned 32 (v % 2 ^ 32) } rest2
      else if fieldNum = 2 then
        if wireType ≠ 2 then Except.error PErr.badWire
        else
          match decodeVarintE rest 0 0 with
          | Except.error e => Except.error e
          | Except.ok (len, rest2) =>
            if rest2.length < len then Except.error PErr.eof
            else unmSigLoop fuel { m with sig := rest2.take len } (rest2.drop len)
      else if fieldNum = 3 then
        if wireType ≠ 2 then Except.error PErr.badWire
        else
          match decodeVarintE rest 0 0 with
          | Except.error e => Except.error e
          | Except.ok (len, rest2) =>
            if rest2.length < len then Except.error PErr.eof
            else unmSigLoop fuel { m with pubKey := rest2.take len } (rest2.drop len)
      else
        match skipTxAux l.length false l with
        | Except.error e => Except.error e
        | Except.ok skippy =>
          if l.length < skippy then Except.error PErr.eof
          else unmSigLoop fuel { m with unrecognized := m.unrecognized ++ l.take skippy }
            (l.drop skippy)

/-- `SignatureRaw.Unmarshal` on a fresh message. -/
def unmarshalSignatureRaw (l : List Nat) : Except PErr SignatureRaw :=
  unmSigLoop l.length SignatureRaw.empty l

/-- The per-iteration dispatch of `TxRaw.Unmarshal`'s field loop (split out of
the loop so that one iteration unfolds by `rfl`); `rec` is the continuation for
the remaining input. -/
def unmTxBody (rec : TxRaw → List Nat → Except PErr TxRaw) (m : TxRaw) (l : List Nat) :
    Except PErr TxRaw :=
    match decodeVarintE l 0 0 with
    | Except.error e => Except.error e
    | Except.ok (wire, rest) =>
      let fieldNum : Int := toSigned 32 (wire / 8 % 2 ^ 32)
      let wireType : Nat := wire % 8
      if wireType = 4 then Except.error PErr.endGroup
      else if fieldNum ≤ 0 then Except.error PErr.illegalTag
      else if fieldNum = 1 then
        if wireType ≠ 0 then Except.error PErr.badWire
        else
          match decodeVarintE rest 0 0 with
          | Except.error e => Except.error e
          | Except.ok (v, rest2) => rec { m with time := toSigned 64 v } rest2
      else if fieldNum = 2 then
        if wireType ≠ 0 then Except.error PErr.badWire
        else
          match decodeVarintE rest 0 0 with
          | Except.error e => Except.error e
          | Except.ok (v, rest2) => rec { m with expiration := toSigned 64 v } rest2
      else if fieldNum = 3 then
        if wireType ≠ 0 then Except.error PErr.badWire
        else
          match decodeVarintE rest 0 0 with
          | Except.error e => Except.error e
          | Except.ok (v, rest2) => rec { m with gasLimit := toSigned 64 v } rest2
      else if fieldNum = 4 then
        if wireType ≠ 0 then Except.error PErr.badWire
        else
          match decodeVarintE rest 0 0 with
          | Except.error e => Except.error e
          | Except.ok (v, rest2) => rec { m with gasPrice := toSigned 64 v } rest2
      else if fieldNum = 5 then
        if wireType ≠ 2 then Except.error PErr.badWire
        else
          match decodeVarintE rest 0 0 with
          | Except.error e => Except.error e
          | Except.ok (len, rest2) =>
            if rest2.length < len then Except.error PErr.eof
            else
              match unmarshalActionRaw (rest2.take len) with
              | Except.error e => Except.error e
              | Except.ok a =>
                rec { m with actions := m.actions ++ [a] } (rest2.drop len)
      else if fieldNum = 6 then
        if wireType ≠ 2 then Except.error PErr.badWire
        else
          match decodeVarintE rest 0 0 with
          | Except.error e => Except.error e
          | Except.ok (len, rest2) =>
            if rest2.length < len then Except.error PErr.eof
            else rec { m with signers := m.signers ++ [rest2.take len] }
              (rest2.drop len)
      else if fieldNum = 7 then
        if wireType ≠ 2 then Except.error PErr.badWire
        else
          match decodeVarintE rest 0 0 with
          | Except.error e => Except.error e
          | Except.ok (len, rest2) =>
            if rest2.length < len then Except.error PErr.eof
            else
              match unmarshalSignatureRaw (rest2.take len) with
              | Except.error e => Except.error e
              | Except.ok s =>
                rec { m with signs := m.signs ++ [s] } (rest2.drop len)
      else if fieldNum = 8 then
        if wireType ≠ 2 then Except.error PErr.badWire
        else
          match decodeVarintE rest 0 0 with
          | Except.error e => Except.error e
          | Except.ok (len, rest2) =>
            if rest2.length < len then Except.error PErr.eof
            else
              match unmSigLoop (rest2.take len).length
                  (m.publisher.getD SignatureRaw.empty) (rest2.take len) with
              | Except.error e => Except.error e
              | Except.ok s =>
                rec { m with publisher := some s } (rest2.drop len)
      else
        match skipTxAux l.length false l with
        | Except.error e => Except.error e
        | Except.ok skippy =>
          if l.length < skippy then Except.error PErr.eof
          else rec { m with unrecognized := m.unrecognized ++ l.take skippy }
            (l.drop skippy)


/-- `TxRaw.Unmarshal`'s field loop. -/
def unmTxLoop : Nat → TxRaw → List Nat → Except PErr TxRaw
  | _, m, [] => Except.ok m
  | 0, _, _ :: _ => Except.error PErr.fuel
  | fuel + 1, m, l => unmTxBody (unmTxLoop fuel) m l

theorem unmTxLoop_succ_cons (fuel : Nat) (m : TxRaw) (b : Nat) (tl : List Nat) :
    unmTxLoop (fuel + 1) m (b :: tl) = unmTxBody (unmTxLoop fuel) m (b :: tl) := rfl

/-- `TxRaw.Unmarshal`. -/
def unmarshalTxRaw (l : List Nat) : Except PErr TxRaw :=
  unmTxLoop l.length TxRaw.empty l

/-! ### Round-trip infrastructure: processing one marshalled field per loop
iteration -/

/-- `c` is a chunk that one iteration of `loop` consumes whole, updating the
message by `f`, for any trailing input and any remaining fuel. -/
def LoopStep {σ : Type} (loop : Nat → σ → List Nat → Except PErr σ)
    (c : List Nat) (f : σ → σ) : Prop :=
  c ≠ [] ∧ ∀ fuel m t, loop (fuel + 1) m (c ++ t) = loop fuel (f m) t

theorem loop_chunks {σ : Type} (loop : Nat → σ → List Nat → Except PErr σ)
    (hnil : ∀ fuel m, loop fuel m [] = Except.ok m)
    (cs : List (List Nat × (σ → σ)))
    (h : ∀ p ∈ cs, LoopStep loop p.1 p.2) :
    ∀ fuel m, cs.length ≤ fuel →
      loop fuel m (List.flatten (cs.map Prod.fst)) =
        Except.ok (cs.foldl (fun x p => p.2 x) m) := by
  induction cs with
  | nil =>
    intro fuel m _
    simpa using hnil fuel m
  | cons p rest ih =>
    intro fuel m hf
    obtain ⟨hne, hstep⟩ := h p (List.mem_cons_self p rest)
    match fuel with
    | 0 => simp at hf
    | fuel + 1 =>
      simp only [List.map_cons, List.flatten_cons, List.foldl_cons]
      rw [hstep fuel m (List.flatten (rest.map Prod.fst))]
      exact ih (fun q hq => h q (List.mem_cons_of_mem _ hq)) fuel (p.2 m) (by
        simp only [List.length_cons] at hf
        omega)

theorem loop_chunks_append {σ : Type} (loop : Nat → σ → List Nat → Except PErr σ)
    (cs : List (List Nat × (σ → σ)))
    (h : ∀ p ∈ cs, LoopStep loop p.1 p.2) (t : List Nat) :
    ∀ fuel m, cs.length ≤ fuel →
      loop fuel m (List.flatten (cs.map Prod.fst) ++ t) =
        loop (fuel - cs.length) (cs.foldl (fun x p => p.2 x) m) t := by
  induction cs with
  | nil =>
    intro fuel m _
    simp
  | cons p rest ih =>
    intro fuel m hf
    obtain ⟨hne, hstep⟩ := h p (List.mem_cons_self p rest)
    match fuel with
    | 0 => simp at hf
    | fuel + 1 =>
      simp only [List.map_cons, List.flatten_cons, List.foldl_cons, List.append_assoc,
        List.length_cons]
      rw [hstep fuel m (List.flatten (rest.map Prod.fst) ++ t)]
      rw [ih (fun q hq => h q (List.mem_cons_of_mem _ hq)) fuel (p.2 m) (by
        simp only [List.length_cons] at hf
        omega)]
      congr 1
      omega

theorem length_chunks_le_flatten {σ : Type} (cs : List (List Nat × (σ → σ)))
    (h : ∀ p ∈ cs, p.1 ≠ []) :
    cs.length ≤ (List.flatten (cs.map Prod.fst)).length := by
  induction cs with
  | nil => simp
  | cons p rest ih =>
    simp only [List.map_cons, List.flatten_cons, List.length_append, List.length_cons]
    have h1 : p.1 ≠ [] := h p (List.mem_cons_self p rest)
    have h2 : 1 ≤ p.1.length := by
      cases hp : p.1 with
      | nil => exact absurd hp h1
      | cons a l => simp
    have := ih (fun q hq => h q (List.mem_cons_of_mem _ hq))
    omega

theorem toSigned_small (w n : Nat) (h2 : n < 2 ^ (w - 1)) (hw : 1 ≤ w) :
    toSigned w n = (n : Int) := by
  unfold toSigned
  have hlt : n < 2 ^ w := by
    have : (2 : Nat) ^ (w - 1) ≤ 2 ^ w := Nat.pow_le_pow_right (by omega) (by omega)
    omega
  rw [Nat.mod_eq_of_lt hlt, if_pos h2]

theorem encodeUnknownField_ne_nil (it : UnknownField) : encodeUnknownField it ≠ [] := by
  cases it <;>
    simp [encodeUnknownField, encodeVarintTx_ne_nil]

theorem length_sub_append (a b : List Nat) : (a ++ b).length - b.length = a.length := by
  simp

/-- `skipTx` consumes exactly one well-formed unknown field. -/
theorem skipTxAux_unknown (it : UnknownField) (lo : Nat)
    (hv : validUnknownField lo it = true) (t : List Nat) (fuel : Nat) :
    skipTxAux (fuel + 1) false (encodeUnknownField it ++ t) =
      Except.ok (encodeUnknownField it).length := by
  cases it with
  | varintF f v =>
    simp only [validUnknownField, decide_eq_true_eq] at hv
    obtain ⟨hlo, hf, hval⟩ := hv
    have htag : f * 8 < 2 ^ 64 := by
      have : f * 8 < 2 ^ 31 * 8 := by omega
      omega
    simp only [encodeUnknownField, List.append_assoc]
    unfold skipTxAux
    rw [decodeVarintE_encode (f * 8) _ htag]
    simp only [length_sub_append]
    have hmod : f * 8 % 8 = 0 := Nat.mul_mod_left f 8
    rw [if_pos hmod, skipVarint_encode v t hval]
    simp [Except.map, List.length_append]
  | fixed64F f b =>
    simp only [validUnknownField, decide_eq_true_eq] at hv
    obtain ⟨hlo, hf, hlen⟩ := hv
    have htag : f * 8 + 1 < 2 ^ 64 := by
      have : f * 8 < 2 ^ 31 * 8 := by omega
      omega
    simp only [encodeUnknownField, List.append_assoc]
    unfold skipTxAux
    rw [decodeVarintE_encode (f * 8 + 1) _ htag]
    simp only [length_sub_append]
    have h0 : ¬ ((f * 8 + 1) % 8 = 0) := by omega
    have h1 : (f * 8 + 1) % 8 = 1 := by omega
    rw [if_neg h0, if_pos h1]
    simp [List.length_append, hlen]
  | bytesF f p =>
    simp only [validUnknownField, decide_eq_true_eq] at hv
    obtain ⟨hlo, hf, hlen⟩ := hv
    have htag : f * 8 + 2 < 2 ^ 64 := by
      have : f * 8 < 2 ^ 31 * 8 := by omega
      omega
    simp only [encodeUnknownField, List.append_assoc]
    unfold skipTxAux
    rw [decodeVarintE_encode (f * 8 + 2) _ htag]
    simp only [length_sub_append]
    have h0 : ¬ ((f * 8 + 2) % 8 = 0) := by omega
    have h1 : ¬ ((f * 8 + 2) % 8 = 1) := by omega
    have h2 : (f * 8 + 2) % 8 = 2 := by omega
    rw [if_neg h0, if_neg h1, if_pos h2, decodeVarintE_encode p.length _ hlen]
    simp only [length_sub_append]
    simp [List.length_append]
    omega
  | fixed32F f b =>
    simp only [validUnknownField, decide_eq_true_eq] at hv
    obtain ⟨hlo, hf, hlen⟩ := hv
    have htag : f * 8 + 5 < 2 ^ 64 := by
      have : f * 8 < 2 ^ 31 * 8 := by omega
      omega
    simp only [encodeUnknownField, List.append_assoc]
    unfold skipTxAux
    rw [decodeVarintE_encode (f * 8 + 5) _ htag]
    simp only [length_sub_append]
    have h0 : ¬ ((f * 8 + 5) % 8 = 0) := by omega
    have h1 : ¬ ((f * 8 + 5) % 8 = 1) := by omega
    have h2 : ¬ ((f * 8 + 5) % 8 = 2) := by omega
    have h3 : ¬ ((f * 8 + 5) % 8 = 3) := by omega
    have h4 : ¬ ((f * 8 + 5) % 8 = 4) := by omega
    have h5 : (f * 8 + 5) % 8 = 5 := by omega
    rw [if_neg h0, if_neg h1, if_neg h2, if_neg h3, if_neg h4, if_pos h5]
    simp [List.length_append, hlen]

/-! ### ActionRaw round trip -/

theorem actStep_contract (s : List Nat) (hs : s.length < 2 ^ 64) (hpos : 0 < s.length) :
    LoopStep unmActLoop (10 :: (encodeVarintTx s.length ++ s))
      (fun m => { m with contract := s }) := by
  refine ⟨by simp, fun fuel m t => ?_⟩
  have hl : ((10 :: (encodeVarintTx s.length ++ s)) ++ t)
      = 10 :: (encodeVarintTx s.length ++ (s ++ t)) := by simp
  rw [hl]
  conv_lhs => unfold unmActLoop
  rw [decodeVarintE_cons_small 10 _ (by norm_num)]
  have hfn : toSigned 32 1 = 1 :=
    toSigned_small 32 1 (by norm_num) (by norm_num)
  have hb : ¬ ((s ++ t).length < s.length) := by
    simp only [List.length_append]
    omega
  have hd := decodeVarintE_encode s.length (s ++ t) hs
  simp [hfn, hb, hd, List.take_left, List.drop_left]

theorem actStep_actionName (s : List Nat) (hs : s.length < 2 ^ 64) (hpos : 0 < s.length) :
    LoopStep unmActLoop (18 :: (encodeVarintTx s.length ++ s))
      (fun m => { m with actionName := s }) := by
  refine ⟨by simp, fun fuel m t => ?_⟩
  have hl : ((18 :: (encodeVarintTx s.length ++ s)) ++ t)
      = 18 :: (encodeVarintTx s.length ++ (s ++ t)) := by simp
  rw [hl]
  conv_lhs => unfold unmActLoop
  rw [decodeVarintE_cons_small 18 _ (by norm_num)]
  have hfn : toSigned 32 2 = 2 :=
    toSigned_small 32 2 (by norm_num) (by norm_num)
  have hb : ¬ ((s ++ t).length < s.length) := by
    simp only [List.length_append]
    omega
  have hd := decodeVarintE_encode s.length (s ++ t) hs
  simp [hfn, hb, hd, List.take_left, List.drop_left]

theorem actStep_data (s : List Nat) (hs : s.length < 2 ^ 64) (hpos : 0 < s.length) :
    LoopStep unmActLoop (26 :: (encodeVarintTx s.length ++ s))
      (fun m => { m with data := s }) := by
  refine ⟨by simp, fun fuel m t => ?_⟩
  have hl : ((26 :: (encodeVarintTx s.length ++ s)) ++ t)
      = 26 :: (encodeVarintTx s.length ++ (s ++ t)) := by simp
  rw [hl]
  conv_lhs => unfold unmActLoop
  rw [decodeVarintE_cons_small 26 _ (by norm_num)]
  have hfn : toSigned 32 3 = 3 :=
    toSigned_small 32 3 (by norm_num) (by norm_num)
  have hb : ¬ ((s ++ t).length < s.length) := by
    simp only [List.length_append]
    omega
  have hd := decodeVarintE_encode s.length (s ++ t) hs
  simp [hfn, hb, hd, List.take_left, List.drop_left]

theorem actStep_unknown (it : UnknownField) (hv : validUnknownField 4 it = true) :
    LoopStep unmActLoop (encodeUnknownField it)
      (fun m => { m with unrecognized := m.unrecognized ++ encodeUnknownField it }) := by
  refine ⟨encodeUnknownField_ne_nil it, fun fuel m t => ?_⟩
  obtain ⟨f, wt, payload, hwt, hwt8, hflo, hfhi, henc⟩ :
      ∃ f wt payload, wt ≠ 4 ∧ wt < 8 ∧ 4 ≤ f ∧ f < 2 ^ 31 ∧
        encodeUnknownField it = encodeVarintTx (f * 8 + wt) ++ payload := by
    cases it with
    | varintF f v =>
      simp only [validUnknownField, decide_eq_true_eq] at hv
      exact ⟨f, 0, encodeVarintTx v, by omega, by omega, hv.1, hv.2.1, by
        simp [encodeUnknownField]⟩
    | fixed64F f b =>
      simp only [validUnknownField, decide_eq_true_eq] at hv
      exact ⟨f, 1, b, by omega, by omega, hv.1, hv.2.1, rfl⟩
    | bytesF f p =>
      simp only [validUnknownField, decide_eq_true_eq] at hv
      exact ⟨f, 2, encodeVarintTx p.length ++ p, by omega, by omega, hv.1, hv.2.1, rfl⟩
    | fixed32F f b =>
      simp only [validUnknownField, decide_eq_true_eq] at hv
      exact ⟨f, 5, b, by omega, by omega, hv.1, hv.2.1, rfl⟩
  have htag : f * 8 + wt < 2 ^ 64 := by
    have : f * 8 < 2 ^ 31 * 8 := by omega
    omega
  have hchunk := encodeUnknownField_ne_nil it
  cases hc : encodeUnknownField it with
  | nil => exact absurd hc hchunk
  | cons a ltl =>
    have hform : a :: (ltl ++ t) = encodeVarintTx (f * 8 + wt) ++ (payload ++ t) := by
      rw [← List.cons_append, ← hc, henc, List.append_assoc]
    rw [List.cons_append]
    conv_lhs => unfold unmActLoop
    rw [hform, decodeVarintE_encode (f * 8 + wt) _ htag]
    have hdiv : (f * 8 + wt) / 8 = f := by omega
    have hfmod : f % 2 ^ 32 = f := Nat.mod_eq_of_lt (by omega)
    have hfn : toSigned 32 ((f * 8 + wt) / 8 % 2 ^ 32) = (f : Int) := by
      rw [hdiv, hfmod]
      exact toSigned_small 32 f (by omega) (by norm_num)
    have hfn2 : toSigned 32 ((f * 8 + wt) / 8 % 4294967296) = (f : Int) := by
      rw [show (4294967296 : Nat) = 2 ^ 32 by norm_num]
      exact hfn
    have hmod : (f * 8 + wt) % 8 = wt := by omega
    have hnle : ¬ ((f : Int) ≤ 0) := by
      have : (4 : Int) ≤ (f : Int) := by exact_mod_cast hflo
      omega
    have hne1 : ¬ ((f : Int) = 1) := by
      have : (4 : Int) ≤ (f : Int) := by exact_mod_cast hflo
      omega
    have hne2 : ¬ ((f : Int) = 2) := by
      have : (4 : Int) ≤ (f : Int) := by exact_mod_cast hflo
      omega
    have hne3 : ¬ ((f : Int) = 3) := by
      have : (4 : Int) ≤ (f : Int) := by exact_mod_cast hflo
      omega
    have hskip : skipTxAux (encodeVarintTx (f * 8 + wt) ++ (payload ++ t)).length false
        (encodeVarintTx (f * 8 + wt) ++ (payload ++ t)) =
        Except.ok (encodeUnknownField it).length := by
      have h1 : (encodeVarintTx (f * 8 + wt) ++ (payload ++ t)).length =
          ((encodeVarintTx (f * 8 + wt) ++ (payload ++ t)).length - 1) + 1 := by
        have := encodeVarintTx_ne_nil (f * 8 + wt)
        cases he : encodeVarintTx (f * 8 + wt) with
        | nil => exact absurd he this
        | cons x xs => simp
      rw [h1, show encodeVarintTx (f * 8 + wt) ++ (payload ++ t) = encodeUnknownField it ++ t by
        rw [henc, List.append_assoc]]
      exact skipTxAux_unknown it 4 hv t _
    have hnb : ¬ ((encodeVarintTx (f * 8 + wt) ++ (payload ++ t)).length
        < (encodeUnknownField it).length) := by
      rw [← List.append_assoc, ← henc]
      simp only [List.length_append]
      omega
    have htake : (encodeVarintTx (f * 8 + wt) ++ (payload ++ t)).take
        (encodeUnknownField it).length = encodeUnknownField it := by
      rw [← List.append_assoc, ← henc, List.take_left]
    have hdrop : (encodeVarintTx (f * 8 + wt) ++ (payload ++ t)).drop
        (encodeUnknownField it).length = t := by
      rw [← List.append_assoc, ← henc, List.drop_left]
    simp [hfn, hfn2, hmod, hwt, hnle, hne1, hne2, hne3]
    rw [show (encodeVarintTx (f * 8 + wt)).length + (payload.length + t.length)
        = (encodeVarintTx (f * 8 + wt) ++ (payload ++ t)).length from by simp]
    rw [hskip]
    simp only [if_neg hnb, htake, hdrop]
    rw [hc]

theorem unmActLoop_nil (fuel : Nat) (m : ActionRaw) : unmActLoop fuel m [] = Except.ok m := by
  cases fuel <;> rfl

/-- Well-formedness of an `ActionRaw` for the round trip: lengths fit in 64
bits (always true of Go slices) and `XXX_unrecognized`, if present, is a
well-formed sequence of unknown fields (numbers ≥ 4). -/
def WfActionRaw (a : ActionRaw) : Prop :=
  a.contract.length < 2 ^ 64 ∧ a.actionName.length < 2 ^ 64 ∧ a.data.length < 2 ^ 64 ∧
  sizeActionRaw a < 2 ^ 64 ∧
  ∃ its : List UnknownField, a.unrecognized = encodeUnknownFields its ∧
    ∀ it ∈ its, validUnknownField 4 it = true

theorem foldl_unknown_act (its : List UnknownField) (m : ActionRaw) :
    its.foldl (fun x it => { x with unrecognized := x.unrecognized ++ encodeUnknownField it }) m
      = { m with unrecognized := m.unrecognized ++ encodeUnknownFields its } := by
  induction its generalizing m with
  | nil => simp [encodeUnknownFields]
  | cons it rest ih =>
    simp only [List.foldl_cons, ih, encodeUnknownFields, List.map_cons, List.flatten_cons,
      List.append_assoc]

theorem unmarshalActionRaw_roundtrip (a : ActionRaw) (h : WfActionRaw a) :
    unmarshalActionRaw (marshalActionRaw a) = Except.ok a := by
  obtain ⟨h1, h2, h3, hsz, its, hu, hvu⟩ := h
  classical
  set cs : List (List Nat × (ActionRaw → ActionRaw)) :=
    (if 0 < a.contract.length then
        [(10 :: (encodeVarintTx a.contract.length ++ a.contract),
          fun m => { m with contract := a.contract })] else [])
    ++ ((if 0 < a.actionName.length then
        [(18 :: (encodeVarintTx a.actionName.length ++ a.actionName),
          fun m => { m with actionName := a.actionName })] else [])
    ++ ((if 0 < a.data.length then
        [(26 :: (encodeVarintTx a.data.length ++ a.data),
          fun m => { m with data := a.data })] else [])
    ++ its.map (fun it => (encodeUnknownField it,
        fun m => { m with unrecognized := m.unrecognized ++ encodeUnknownField it }))))
    with hcs
  have hsteps : ∀ p ∈ cs, LoopStep unmActLoop p.1 p.2 := by
    intro p hp
    rw [hcs] at hp
    rcases List.mem_append.mp hp with hp | hp
    · by_cases hc1 : 0 < a.contract.length
      · rw [if_pos hc1] at hp
        simp only [List.mem_singleton] at hp
        subst hp
        exact actStep_contract a.contract h1 hc1
      · rw [if_neg hc1] at hp
        simp at hp
    · rcases List.mem_append.mp hp with hp | hp
      · by_cases hc2 : 0 < a.actionName.length
        · rw [if_pos hc2] at hp
          simp only [List.mem_singleton] at hp
          subst hp
          exact actStep_actionName a.actionName h2 hc2
        · rw [if_neg hc2] at hp
          simp at hp
      · rcases List.mem_append.mp hp with hp | hp
        · by_cases hc3 : 0 < a.data.length
          · rw [if_pos hc3] at hp
            simp only [List.mem_singleton] at hp
            subst hp
            exact actStep_data a.data h3 hc3
          · rw [if_neg hc3] at hp
            simp at hp
        · simp only [List.mem_map] at hp
          obtain ⟨it, hit, hpe⟩ := hp
          subst hpe
          exact actStep_unknown it (hvu it hit)
  have hflat : List.flatten (cs.map Prod.fst) = marshalActionRaw a := by
    rw [hcs]
    unfold marshalActionRaw
    by_cases hc1 : 0 < a.contract.length <;>
      by_cases hc2 : 0 < a.actionName.length <;>
        by_cases hc3 : 0 < a.data.length <;>
          simp [hc1, hc2, hc3, hu, encodeUnknownFields, Function.comp_def]
  have hfold : cs.foldl (fun x p => p.2 x) ActionRaw.empty = a := by
    rw [hcs]
    simp only [List.foldl_append, List.foldl_map]
    by_cases hc1 : 0 < a.contract.length <;>
      by_cases hc2 : 0 < a.actionName.length <;>
        by_cases hc3 : 0 < a.data.length <;>
          [skip; skip; skip; skip; skip; skip; skip; skip] <;>
          simp only [if_pos, if_neg, hc1, hc2, hc3, List.foldl_cons, List.foldl_nil,
            ite_true, ite_false] <;>
          rw [foldl_unknown_act] <;>
          cases a with
          | mk c n d u =>
            simp only [ActionRaw.empty] at *
            first
            | (simp only [List.length_pos_iff_ne_nil, not_not,
                Nat.pos_iff_ne_zero, not_ne_iff, List.length_eq_zero] at hc1 hc2 hc3 <;>
                simp_all)
            | simp_all
  have hlen : cs.length ≤ (marshalActionRaw a).length := by
    rw [← hflat]
    exact length_chunks_le_flatten cs (fun p hp => (hsteps p hp).1)
  show unmActLoop (marshalActionRaw a).length ActionRaw.empty (marshalActionRaw a) = Except.ok a
  rw [← hflat]
  rw [loop_chunks unmActLoop unmActLoop_nil cs hsteps _ ActionRaw.empty (by rw [hflat]; exact hlen)]
  rw [hfold]

/-! ### SignatureRaw round trip -/

theorem toUnsigned64_mod32 (x : Int) : toUnsigned 64 x % 2 ^ 32 = toUnsigned 32 x := by
  unfold toUnsigned
  have h1 : x % ((2 : Int) ^ 64) % ((2 : Int) ^ 32) = x % ((2 : Int) ^ 32) :=
    Int.emod_emod_of_dvd x (by norm_num)
  have hnn : 0 ≤ x % ((2 : Int) ^ 64) := Int.emod_nonneg x (by norm_num)
  have hnn2 : 0 ≤ x % ((2 : Int) ^ 32) := Int.emod_nonneg x (by norm_num)
  simp only [show ((2 : Int) ^ 64) = 18446744073709551616 from by norm_num,
    show ((2 : Int) ^ 32) = 4294967296 from by norm_num,
    show ((2 : Nat) ^ 32) = 4294967296 from by norm_num] at h1 hnn hnn2 ⊢
  omega

theorem toSigned32_toUnsigned64 (x : Int) (hlo : -(2 : Int) ^ 31 ≤ x) (hhi : x < 2 ^ 31) :
    toSigned 32 (toUnsigned 64 x % 2 ^ 32) = x := by
  rw [toUnsigned64_mod32]
  exact toSigned_toUnsigned 32 x (by simpa using hlo) (by simpa using hhi) (by norm_num)

theorem sigStep_algorithm (x : Int) (hlo : -(2 : Int) ^ 31 ≤ x) (hhi : x < 2 ^ 31) :
    LoopStep unmSigLoop (8 :: encodeVarintTx (toUnsigned 64 x))
      (fun m => { m with algorithm := x }) := by
  refine ⟨by simp, fun fuel m t => ?_⟩
  have hl : ((8 :: encodeVarintTx (toUnsigned 64 x)) ++ t)
      = 8 :: (encodeVarintTx (toUnsigned 64 x) ++ t) := by simp
  rw [hl]
  conv_lhs => unfold unmSigLoop
  rw [decodeVarintE_cons_small 8 _ (by norm_num)]
  have hfn : toSigned 32 1 = 1 :=
    toSigned_small 32 1 (by norm_num) (by norm_num)
  have hd := decodeVarintE_encode (toUnsigned 64 x) t (toUnsigned_lt 64 x)
  have hsig : toSigned 32 (toUnsigned 64 x % 2 ^ 32) = x := toSigned32_toUnsigned64 x hlo hhi
  have hsig2 : toSigned 32 (toUnsigned 64 x % 4294967296) = x := by
    rw [show (4294967296 : Nat) = 2 ^ 32 by norm_num]
    exact hsig
  simp [hfn, hd, hsig, hsig2]

theorem sigStep_sig (s : List Nat) (hs : s.length < 2 ^ 64) :
    LoopStep unmSigLoop (18 :: (encodeVarintTx s.length ++ s))
      (fun m => { m with sig := s }) := by
  refine ⟨by simp, fun fuel m t => ?_⟩
  have hl : ((18 :: (encodeVarintTx s.length ++ s)) ++ t)
      = 18 :: (encodeVarintTx s.length ++ (s ++ t)) := by simp
  rw [hl]
  conv_lhs => unfold unmSigLoop
  rw [decodeVarintE_cons_small 18 _ (by norm_num)]
  have hfn : toSigned 32 2 = 2 :=
    toSigned_small 32 2 (by norm_num) (by norm_num)
  have hb : ¬ ((s ++ t).length < s.length) := by
    simp only [List.length_append]
    omega
  have hd := decodeVarintE_encode s.length (s ++ t) hs
  simp [hfn, hb, hd, List.take_left, List.drop_left]

theorem sigStep_pubKey (s : List Nat) (hs : s.length < 2 ^ 64) :
    LoopStep unmSigLoop (26 :: (encodeVarintTx s.length ++ s))
      (fun m => { m with pubKey := s }) := by
  refine ⟨by simp, fun fuel m t => ?_⟩
  have hl : ((26 :: (encodeVarintTx s.length ++ s)) ++ t)
      = 26 :: (encodeVarintTx s.length ++ (s ++ t)) := by simp
  rw [hl]
  conv_lhs => unfold unmSigLoop
  rw [decodeVarintE_cons_small 26 _ (by norm_num)]
  have hfn : toSigned 32 3 = 3 :=
    toSigned_small 32 3 (by norm_num) (by norm_num)
  have hb : ¬ ((s ++ t).length < s.length) := by
    simp only [List.length_append]
    omega
  have hd := decodeVarintE_encode s.length (s ++ t) hs
  simp [hfn, hb, hd, List.take_left, List.drop_left]

theorem sigStep_unknown (it : UnknownField) (hv : validUnknownField 4 it = true) :
    LoopStep unmSigLoop (encodeUnknownField it)
      (fun m => { m with unrecognized := m.unrecognized ++ encodeUnknownField it }) := by
  refine ⟨encodeUnknownField_ne_nil it, fun fuel m t => ?_⟩
  obtain ⟨f, wt, payload, hwt, hwt8, hflo, hfhi, henc⟩ :
      ∃ f wt payload, wt ≠ 4 ∧ wt < 8 ∧ 4 ≤ f ∧ f < 2 ^ 31 ∧
        encodeUnknownField it = encodeVarintTx (f * 8 + wt) ++ payload := by
    cases it with
    | varintF f v =>
      simp only [validUnknownField, decide_eq_true_eq] at hv
      exact ⟨f, 0, encodeVarintTx v, by omega, by omega, hv.1, hv.2.1, by
        simp [encodeUnknownField]⟩
    | fixed64F f b =>
      simp only [validUnknownField, decide_eq_true_eq] at hv
      exact ⟨f, 1, b, by omega, by omega, hv.1, hv.2.1, rfl⟩
    | bytesF f p =>
      simp only [validUnknownField, decide_eq_true_eq] at hv
      exact ⟨f, 2, encodeVarintTx p.length ++ p, by omega, by omega, hv.1, hv.2.1, rfl⟩
    | fixed32F f b =>
      simp only [validUnknownField, decide_eq_true_eq] at hv
      exact ⟨f, 5, b, by omega, by omega, hv.1, hv.2.1, rfl⟩
  have htag : f * 8 + wt < 2 ^ 64 := by
    have : f * 8 < 2 ^ 31 * 8 := by omega
    omega
  have hchunk := encodeUnknownField_ne_nil it
  cases hc : encodeUnknownField it with
  | nil => exact absurd hc hchunk
  | cons a ltl =>
    have hform : a :: (ltl ++ t) = encodeVarintTx (f * 8 + wt) ++ (payload ++ t) := by
      rw [← List.cons_append, ← hc, henc, List.append_assoc]
    rw [List.cons_append]
    conv_lhs => unfold unmSigLoop
    rw [hform, decodeVarintE_encode (f * 8 + wt) _ htag]
    have hdiv : (f * 8 + wt) / 8 = f := by omega
    have hfmod : f % 2 ^ 32 = f := Nat.mod_eq_of_lt (by omega)
    have hfn : toSigned 32 ((f * 8 + wt) / 8 % 2 ^ 32) = (f : Int) := by
      rw [hdiv, hfmod]
      exact toSigned_small 32 f (by omega) (by norm_num)
    have hfn2 : toSigned 32 ((f * 8 + wt) / 8 % 4294967296) = (f : Int) := by
      rw [show (4294967296 : Nat) = 2 ^ 32 by norm_num]
      exact hfn
    have hmod : (f * 8 + wt) % 8 = wt := by omega
    have hnle : ¬ ((f : Int) ≤ 0) := by
      have : (4 : Int) ≤ (f : Int) := by exact_mod_cast hflo
      omega
    have hne1 : ¬ ((f : Int) = 1) := by
      have : (4 : Int) ≤ (f : Int) := by exact_mod_cast hflo
      omega
    have hne2 : ¬ ((f : Int) = 2) := by
      have : (4 : Int) ≤ (f : Int) := by exact_mod_cast hflo
      omega
    have hne3 : ¬ ((f : Int) = 3) := by
      have : (4 : Int) ≤ (f : Int) := by exact_mod_cast hflo
      omega
    have hskip : skipTxAux (encodeVarintTx (f * 8 + wt) ++ (payload ++ t)).length false
        (encodeVarintTx (f * 8 + wt) ++ (payload ++ t)) =
        Except.ok (encodeUnknownField it).length := by
      have h1 : (encodeVarintTx (f * 8 + wt) ++ (payload ++ t)).length =
          ((encodeVarintTx (f * 8 + wt) ++ (payload ++ t)).length - 1) + 1 := by
        have := encodeVarintTx_ne_nil (f * 8 + wt)
        cases he : encodeVarintTx (f * 8 + wt) with
        | nil => exact absurd he this
        | cons y ys => simp
      rw [h1, show encodeVarintTx (f * 8 + wt) ++ (payload ++ t) = encodeUnknownField it ++ t by
        rw [henc, List.append_assoc]]
      exact skipTxAux_unknown it 4 hv t _
    have hnb : ¬ ((encodeVarintTx (f * 8 + wt) ++ (payload ++ t)).length
        < (encodeUnknownField it).length) := by
      rw [← List.append_assoc, ← henc]
      simp only [List.length_append]
      omega
    have htake : (encodeVarintTx (f * 8 + wt) ++ (payload ++ t)).take
        (encodeUnknownField it).length = encodeUnknownField it := by
      rw [← List.append_assoc, ← henc, List.take_left]
    have hdrop : (encodeVarintTx (f * 8 + wt) ++ (payload ++ t)).drop
        (encodeUnknownField it).length = t := by
      rw [← List.append_assoc, ← henc, List.drop_left]
    simp [hfn, hfn2, hmod, hwt, hnle, hne1, hne2, hne3]
    rw [show (encodeVarintTx (f * 8 + wt)).length + (payload.length + t.length)
        = (encodeVarintTx (f * 8 + wt) ++ (payload ++ t)).length from by simp]
    rw [hskip]
    simp only [if_neg hnb, htake, hdrop]
    rw [hc]

theorem unmSigLoop_nil (fuel : Nat) (m : SignatureRaw) : unmSigLoop fuel m [] = Except.ok m := by
  cases fuel <;> rfl

/-- Well-formedness of a `SignatureRaw` for the round trip. -/
def WfSignatureRaw (s : SignatureRaw) : Prop :=
  -(2 : Int) ^ 31 ≤ s.algorithm ∧ s.algorithm < 2 ^ 31 ∧
  s.sig.length < 2 ^ 64 ∧ s.pubKey.length < 2 ^ 64 ∧ sizeSignatureRaw s < 2 ^ 64 ∧
  ∃ its : List UnknownField, s.unrecognized = encodeUnknownFields its ∧
    ∀ it ∈ its, validUnknownField 4 it = true

theorem foldl_unknown_sig (its : List UnknownField) (m : SignatureRaw) :
    its.foldl (fun x it => { x with unrecognized := x.unrecognized ++ encodeUnknownField it }) m
      = { m with unrecognized := m.unrecognized ++ encodeUnknownFields its } := by
  induction its generalizing m with
  | nil => simp [encodeUnknownFields]
  | cons it rest ih =>
    simp only [List.foldl_cons, ih, encodeUnknownFields, List.map_cons, List.flatten_cons,
      List.append_assoc]

theorem unmarshalSignatureRaw_roundtrip (s : SignatureRaw) (h : WfSignatureRaw s) :
    unmarshalSignatureRaw (marshalSignatureRaw s) = Except.ok s := by
  obtain ⟨h1, h2, h3, h4, hsz, its, hu, hvu⟩ := h
  classical
  set cs : List (List Nat × (SignatureRaw → SignatureRaw)) :=
    (if s.algorithm ≠ 0 then
        [(8 :: encodeVarintTx (toUnsigned 64 s.algorithm),
          fun m => { m with algorithm := s.algorithm })] else [])
    ++ ((if 0 < s.sig.length then
        [(18 :: (encodeVarintTx s.sig.length ++ s.sig),
          fun m => { m with sig := s.sig })] else [])
    ++ ((if 0 < s.pubKey.length then
        [(26 :: (encodeVarintTx s.pubKey.length ++ s.pubKey),
          fun m => { m with pubKey := s.pubKey })] else [])
    ++ its.map (fun it => (encodeUnknownField it,
        fun m => { m with unrecognized := m.unrecognized ++ encodeUnknownField it }))))
    with hcs
  have hsteps : ∀ p ∈ cs, LoopStep unmSigLoop p.1 p.2 := by
    intro p hp
    rw [hcs] at hp
    rcases List.mem_append.mp hp with hp | hp
    · by_cases hc1 : s.algorithm ≠ 0
      · rw [if_pos hc1] at hp
        simp only [List.mem_singleton] at hp
        subst hp
        exact sigStep_algorithm s.algorithm h1 h2
      · rw [if_neg hc1] at hp
        simp at hp
    · rcases List.mem_append.mp hp with hp | hp
      · by_cases hc2 : 0 < s.sig.length
        · rw [if_pos hc2] at hp
          simp only [List.mem_singleton] at hp
          subst hp
          exact sigStep_sig s.sig h3
        · rw [if_neg hc2] at hp
          simp at hp
      · rcases List.mem_append.mp hp with hp | hp
        · by_cases hc3 : 0 < s.pubKey.length
          · rw [if_pos hc3] at hp
            simp only [List.mem_singleton] at hp
            subst hp
            exact sigStep_pubKey s.pubKey h4
          · rw [if_neg hc3] at hp
            simp at hp
        · simp only [List.mem_map] at hp
          obtain ⟨it, hit, hpe⟩ := hp
          subst hpe
          exact sigStep_unknown it (hvu it hit)
  have hflat : List.flatten (cs.map Prod.fst) = marshalSignatureRaw s := by
    rw [hcs]
    unfold marshalSignatureRaw
    by_cases hc1 : s.algorithm ≠ 0 <;>
      by_cases hc2 : 0 < s.sig.length <;>
        by_cases hc3 : 0 < s.pubKey.length <;>
          simp [hc1, hc2, hc3, hu, encodeUnknownFields, Function.comp_def]
  have hfold : cs.foldl (fun x p => p.2 x) SignatureRaw.empty = s := by
    rw [hcs]
    simp only [List.foldl_append, List.foldl_map]
    by_cases hc1 : s.algorithm ≠ 0 <;>
      by_cases hc2 : 0 < s.sig.length <;>
        by_cases hc3 : 0 < s.pubKey.length <;>
          [skip; skip; skip; skip; skip; skip; skip; skip] <;>
          simp only [if_pos, if_neg, hc1, hc2, hc3, List.foldl_cons, List.foldl_nil,
            ite_true, ite_false] <;>
          rw [foldl_unknown_sig] <;>
          cases s with
          | mk alg sg pk u =>
            simp only [SignatureRaw.empty] at *
            first
            | (simp only [List.length_pos_iff_ne_nil, not_not,
                Nat.pos_iff_ne_zero, not_ne_iff, List.length_eq_zero] at hc1 hc2 hc3 <;>
                simp_all)
            | simp_all
  have hlen : cs.length ≤ (marshalSignatureRaw s).length := by
    rw [← hflat]
    exact length_chunks_le_flatten cs (fun p hp => (hsteps p hp).1)
  show unmSigLoop (marshalSignatureRaw s).length SignatureRaw.empty (marshalSignatureRaw s)
      = Except.ok s
  rw [← hflat]
  rw [loop_chunks unmSigLoop unmSigLoop_nil cs hsteps _ SignatureRaw.empty
    (by rw [hflat]; exact hlen)]
  rw [hfold]

/-! ### TxRaw round trip -/

theorem unmTxLoop_nil (fuel : Nat) (m : TxRaw) : unmTxLoop fuel m [] = Except.ok m := by
  cases fuel <;> rfl

theorem txStep_time (x : Int) (hlo : -(2 : Int) ^ 63 ≤ x) (hhi : x < 2 ^ 63) :
    LoopStep unmTxLoop (8 :: encodeVarintTx (toUnsigned 64 x))
      (fun m => { m with time := x }) := by
  refine ⟨by simp, fun fuel m t => ?_⟩
  rw [show (8 :: encodeVarintTx (toUnsigned 64 x)) ++ t
      = 8 :: (encodeVarintTx (toUnsigned 64 x) ++ t) by simp]
  rw [unmTxLoop_succ_cons]
  conv_lhs => unfold unmTxBody
  rw [decodeVarintE_cons_small 8 _ (by norm_num)]
  have hfn : toSigned 32 1 = 1 := toSigned_small 32 1 (by norm_num) (by norm_num)
  have hd := decodeVarintE_encode (toUnsigned 64 x) t (toUnsigned_lt 64 x)
  have hsig : toSigned 64 (toUnsigned 64 x) = x :=
    toSigned_toUnsigned 64 x (by simpa using hlo) (by simpa using hhi) (by norm_num)
  simp [hfn, hd, hsig]

theorem txStep_expiration (x : Int) (hlo : -(2 : Int) ^ 63 ≤ x) (hhi : x < 2 ^ 63) :
    LoopStep unmTxLoop (16 :: encodeVarintTx (toUnsigned 64 x))
      (fun m => { m with expiration := x }) := by
  refine ⟨by simp, fun fuel m t => ?_⟩
  rw [show (16 :: encodeVarintTx (toUnsigned 64 x)) ++ t
      = 16 :: (encodeVarintTx (toUnsigned 64 x) ++ t) by simp]
  rw [unmTxLoop_succ_cons]
  conv_lhs => unfold unmTxBody
  rw [decodeVarintE_cons_small 16 _ (by norm_num)]
  have hfn : toSigned 32 2 = 2 := toSigned_small 32 2 (by norm_num) (by norm_num)
  have hd := decodeVarintE_encode (toUnsigned 64 x) t (toUnsigned_lt 64 x)
  have hsig : toSigned 64 (toUnsigned 64 x) = x :=
    toSigned_toUnsigned 64 x (by simpa using hlo) (by simpa using hhi) (by norm_num)
  simp [hfn, hd, hsig]

theorem txStep_gasLimit (x : Int) (hlo : -(2 : Int) ^ 63 ≤ x) (hhi : x < 2 ^ 63) :
    LoopStep unmTxLoop (24 :: encodeVarintTx (toUnsigned 64 x))
      (fun m => { m with gasLimit := x }) := by
  refine ⟨by simp, fun fuel m t => ?_⟩
  rw [show (24 :: encodeVarintTx (toUnsigned 64 x)) ++ t
      = 24 :: (encodeVarintTx (toUnsigned 64 x) ++ t) by simp]
  rw [unmTxLoop_succ_cons]
  conv_lhs => unfold unmTxBody
  rw [decodeVarintE_cons_small 24 _ (by norm_num)]
  have hfn : toSigned 32 3 = 3 := toSigned_small 32 3 (by norm_num) (by norm_num)
  have hd := decodeVarintE_encode (toUnsigned 64 x) t (toUnsigned_lt 64 x)
  have hsig : toSigned 64 (toUnsigned 64 x) = x :=
    toSigned_toUnsigned 64 x (by simpa using hlo) (by simpa using hhi) (by norm_num)
  simp [hfn, hd, hsig]

theorem txStep_gasPrice (x : Int) (hlo : -(2 : Int) ^ 63 ≤ x) (hhi : x < 2 ^ 63) :
    LoopStep unmTxLoop (32 :: encodeVarintTx (toUnsigned 64 x))
      (fun m => { m with gasPrice := x }) := by
  refine ⟨by simp, fun fuel m t => ?_⟩
  rw [show (32 :: encodeVarintTx (toUnsigned 64 x)) ++ t
      = 32 :: (encodeVarintTx (toUnsigned 64 x) ++ t) by simp]
  rw [unmTxLoop_succ_cons]
  conv_lhs => unfold unmTxBody
  rw [decodeVarintE_cons_small 32 _ (by norm_num)]
  have hfn : toSigned 32 4 = 4 := toSigned_small 32 4 (by norm_num) (by norm_num)
  have hd := decodeVarintE_encode (toUnsigned 64 x) t (toUnsigned_lt 64 x)
  have hsig : toSigned 64 (toUnsigned 64 x) = x :=
    toSigned_toUnsigned 64 x (by simpa using hlo) (by simpa using hhi) (by norm_num)
  simp [hfn, hd, hsig]

theorem txStep_action (a : ActionRaw) (ha : WfActionRaw a) :
    LoopStep unmTxLoop (42 :: (encodeVarintTx (sizeActionRaw a) ++ marshalActionRaw a))
      (fun m => { m with actions := m.actions ++ [a] }) := by
  refine ⟨by simp, fun fuel m t => ?_⟩
  have hsz : sizeActionRaw a < 2 ^ 64 := ha.2.2.2.1
  rw [show (42 :: (encodeVarintTx (sizeActionRaw a) ++ marshalActionRaw a)) ++ t
      = 42 :: (encodeVarintTx (sizeActionRaw a) ++ (marshalActionRaw a ++ t)) by simp]
  rw [unmTxLoop_succ_cons]
  conv_lhs => unfold unmTxBody
  rw [decodeVarintE_cons_small 42 _ (by norm_num)]
  have hfn : toSigned 32 5 = 5 := toSigned_small 32 5 (by norm_num) (by norm_num)
  have hd := decodeVarintE_encode (sizeActionRaw a) (marshalActionRaw a ++ t) hsz
  have hb : ¬ ((marshalActionRaw a ++ t).length < sizeActionRaw a) := by
    rw [sizeActionRaw_eq_length]
    simp only [List.length_append]
    omega
  have hb2 : ¬ ((marshalActionRaw a).length + t.length < sizeActionRaw a) := by
    rw [sizeActionRaw_eq_length]
    omega
  have htake : (marshalActionRaw a ++ t).take (sizeActionRaw a) = marshalActionRaw a := by
    rw [sizeActionRaw_eq_length]
    exact List.take_left _ _
  have hdrop : (marshalActionRaw a ++ t).drop (sizeActionRaw a) = t := by
    rw [sizeActionRaw_eq_length]
    exact List.drop_left _ _
  have hrt : unmarshalActionRaw (marshalActionRaw a) = Except.ok a :=
    unmarshalActionRaw_roundtrip a ha
  simp [hfn, hd, hb, hb2, htake, hdrop, hrt]

theorem txStep_signer (s : List Nat) (hs : s.length < 2 ^ 64) :
    LoopStep unmTxLoop (50 :: (encodeVarintTx s.length ++ s))
      (fun m => { m with signers := m.signers ++ [s] }) := by
  refine ⟨by simp, fun fuel m t => ?_⟩
  rw [show (50 :: (encodeVarintTx s.length ++ s)) ++ t
      = 50 :: (encodeVarintTx s.length ++ (s ++ t)) by simp]
  rw [unmTxLoop_succ_cons]
  conv_lhs => unfold unmTxBody
  rw [decodeVarintE_cons_small 50 _ (by norm_num)]
  have hfn : toSigned 32 6 = 6 := toSigned_small 32 6 (by norm_num) (by norm_num)
  have hd := decodeVarintE_encode s.length (s ++ t) hs
  have hb : ¬ ((s ++ t).length < s.length) := by
    simp only [List.length_append]
    omega
  simp [hfn, hd, hb, List.take_left, List.drop_left]

theorem txStep_sign (s : SignatureRaw) (hs : WfSignatureRaw s) :
    LoopStep unmTxLoop (58 :: (encodeVarintTx (sizeSignatureRaw s) ++ marshalSignatureRaw s))
      (fun m => { m with signs := m.signs ++ [s] }) := by
  refine ⟨by simp, fun fuel m t => ?_⟩
  have hsz : sizeSignatureRaw s < 2 ^ 64 := hs.2.2.2.2.1
  rw [show (58 :: (encodeVarintTx (sizeSignatureRaw s) ++ marshalSignatureRaw s)) ++ t
      = 58 :: (encodeVarintTx (sizeSignatureRaw s) ++ (marshalSignatureRaw s ++ t)) by simp]
  rw [unmTxLoop_succ_cons]
  conv_lhs => unfold unmTxBody
  rw [decodeVarintE_cons_small 58 _ (by norm_num)]
  have hfn : toSigned 32 7 = 7 := toSigned_small 32 7 (by norm_num) (by norm_num)
  have hd := decodeVarintE_encode (sizeSignatureRaw s) (marshalSignatureRaw s ++ t) hsz
  have hb : ¬ ((marshalSignatureRaw s ++ t).length < sizeSignatureRaw s) := by
    rw [sizeSignatureRaw_eq_length]
    simp only [List.length_append]
    omega
  have hb2 : ¬ ((marshalSignatureRaw s).length + t.length < sizeSignatureRaw s) := by
    rw [sizeSignatureRaw_eq_length]
    omega
  have htake : (marshalSignatureRaw s ++ t).take (sizeSignatureRaw s) = marshalSignatureRaw s := by
    rw [sizeSignatureRaw_eq_length]
    exact List.take_left _ _
  have hdrop : (marshalSignatureRaw s ++ t).drop (sizeSignatureRaw s) = t := by
    rw [sizeSignatureRaw_eq_length]
    exact List.drop_left _ _
  have hrt : unmarshalSignatureRaw (marshalSignatureRaw s) = Except.ok s :=
    unmarshalSignatureRaw_roundtrip s hs
  simp [hfn, hd, hb, hb2, htake, hdrop, hrt]

/-- One loop iteration on the publisher field when no publisher has been seen
yet (the Go code merges into an existing `m.Publisher`; on a marshalled
message the field occurs once, with `m.Publisher == nil` before it). -/
theorem txStep_publisher (s : SignatureRaw) (hs : WfSignatureRaw s) (fuel : Nat)
    (m : TxRaw) (hm : m.publisher = none) (t : List Nat) :
    unmTxLoop (fuel + 1) m
        ((66 :: (encodeVarintTx (sizeSignatureRaw s) ++ marshalSignatureRaw s)) ++ t)
      = unmTxLoop fuel { m with publisher := some s } t := by
  have hsz : sizeSignatureRaw s < 2 ^ 64 := hs.2.2.2.2.1
  rw [show (66 :: (encodeVarintTx (sizeSignatureRaw s) ++ marshalSignatureRaw s)) ++ t
      = 66 :: (encodeVarintTx (sizeSignatureRaw s) ++ (marshalSignatureRaw s ++ t)) by simp]
  rw [unmTxLoop_succ_cons]
  conv_lhs => unfold unmTxBody
  rw [decodeVarintE_cons_small 66 _ (by norm_num)]
  have hfn : toSigned 32 8 = 8 := toSigned_small 32 8 (by norm_num) (by norm_num)
  have hd := decodeVarintE_encode (sizeSignatureRaw s) (marshalSignatureRaw s ++ t) hsz
  have hb : ¬ ((marshalSignatureRaw s ++ t).length < sizeSignatureRaw s) := by
    rw [sizeSignatureRaw_eq_length]
    simp only [List.length_append]
    omega
  have hb2 : ¬ ((marshalSignatureRaw s).length + t.length < sizeSignatureRaw s) := by
    rw [sizeSignatureRaw_eq_length]
    omega
  have htake : (marshalSignatureRaw s ++ t).take (sizeSignatureRaw s) = marshalSignatureRaw s := by
    rw [sizeSignatureRaw_eq_length]
    exact List.take_left _ _
  have hdrop : (marshalSignatureRaw s ++ t).drop (sizeSignatureRaw s) = t := by
    rw [sizeSignatureRaw_eq_length]
    exact List.drop_left _ _
  have hrt : unmSigLoop (marshalSignatureRaw s).length SignatureRaw.empty
      (marshalSignatureRaw s) = Except.ok s := by
    have := unmarshalSignatureRaw_roundtrip s hs
    simpa [unmarshalSignatureRaw] using this
  simp [hfn, hd, hb, hb2, htake, hdrop, hrt, hm]

theorem txStep_unknown (it : UnknownField) (hv : validUnknownField 9 it = true) :
    LoopStep unmTxLoop (encodeUnknownField it)
      (fun m => { m with unrecognized := m.unrecognized ++ encodeUnknownField it }) := by
  refine ⟨encodeUnknownField_ne_nil it, fun fuel m t => ?_⟩
  obtain ⟨f, wt, payload, hwt, hwt8, hflo, hfhi, henc⟩ :
      ∃ f wt payload, wt ≠ 4 ∧ wt < 8 ∧ 9 ≤ f ∧ f < 2 ^ 31 ∧
        encodeUnknownField it = encodeVarintTx (f * 8 + wt) ++ payload := by
    cases it with
    | varintF f v =>
      simp only [validUnknownField, decide_eq_true_eq] at hv
      exact ⟨f, 0, encodeVarintTx v, by omega, by omega, hv.1, hv.2.1, by
        simp [encodeUnknownField]⟩
    | fixed64F f b =>
      simp only [validUnknownField, decide_eq_true_eq] at hv
      exact ⟨f, 1, b, by omega, by omega, hv.1, hv.2.1, rfl⟩
    | bytesF f p =>
      simp only [validUnknownField, decide_eq_true_eq] at hv
      exact ⟨f, 2, encodeVarintTx p.length ++ p, by omega, by omega, hv.1, hv.2.1, rfl⟩
    | fixed32F f b =>
      simp only [validUnknownField, decide_eq_true_eq] at hv
      exact ⟨f, 5, b, by omega, by omega, hv.1, hv.2.1, rfl⟩
  have htag : f * 8 + wt < 2 ^ 64 := by
    have : f * 8 < 2 ^ 31 * 8 := by omega
    omega
  have hchunk := encodeUnknownField_ne_nil it
  cases hc : encodeUnknownField it with
  | nil => exact absurd hc hchunk
  | cons a ltl =>
    have hform : a :: (ltl ++ t) = encodeVarintTx (f * 8 + wt) ++ (payload ++ t) := by
      rw [← List.cons_append, ← hc, henc, List.append_assoc]
    rw [List.cons_append, unmTxLoop_succ_cons]
    conv_lhs => unfold unmTxBody
    rw [hform, decodeVarintE_encode (f * 8 + wt) _ htag]
    have hdiv : (f * 8 + wt) / 8 = f := by omega
    have hfmod : f % 2 ^ 32 = f := Nat.mod_eq_of_lt (by omega)
    have hfn : toSigned 32 ((f * 8 + wt) / 8 % 2 ^ 32) = (f : Int) := by
      rw [hdiv, hfmod]
      exact toSigned_small 32 f (by omega) (by norm_num)
    have hfn2 : toSigned 32 ((f * 8 + wt) / 8 % 4294967296) = (f : Int) := by
      rw [show (4294967296 : Nat) = 2 ^ 32 by norm_num]
      exact hfn
    have hmod : (f * 8 + wt) % 8 = wt := by omega
    have hfc : (9 : Int) ≤ (f : Int) := by exact_mod_cast hflo
    have hnle : ¬ ((f : Int) ≤ 0) := by omega
    have hne1 : ¬ ((f : Int) = 1) := by omega
    have hne2 : ¬ ((f : Int) = 2) := by omega
    have hne3 : ¬ ((f : Int) = 3) := by omega
    have hne4 : ¬ ((f : Int) = 4) := by omega
    have hne5 : ¬ ((f : Int) = 5) := by omega
    have hne6 : ¬ ((f : Int) = 6) := by omega
    have hne7 : ¬ ((f : Int) = 7) := by omega
    have hne8 : ¬ ((f : Int) = 8) := by omega
    have hskip : skipTxAux (encodeVarintTx (f * 8 + wt) ++ (payload ++ t)).length false
        (encodeVarintTx (f * 8 + wt) ++ (payload ++ t)) =
        Except.ok (encodeUnknownField it).length := by
      have h1 : (encodeVarintTx (f * 8 + wt) ++ (payload ++ t)).length =
          ((encodeVarintTx (f * 8 + wt) ++ (payload ++ t)).length - 1) + 1 := by
        have := encodeVarintTx_ne_nil (f * 8 + wt)
        cases he : encodeVarintTx (f * 8 + wt) with
        | nil => exact absurd he this
        | cons y ys => simp
      rw [h1, show encodeVarintTx (f * 8 + wt) ++ (payload ++ t) = encodeUnknownField it ++ t by
        rw [henc, List.append_assoc]]
      exact skipTxAux_unknown it 9 hv t _
    have hnb : ¬ ((encodeVarintTx (f * 8 + wt) ++ (payload ++ t)).length
        < (encodeUnknownField it).length) := by
      rw [← List.append_assoc, ← henc]
      simp only [List.length_append]
      omega
    have htake : (encodeVarintTx (f * 8 + wt) ++ (payload ++ t)).take
        (encodeUnknownField it).length = encodeUnknownField it := by
      rw [← List.append_assoc, ← henc, List.take_left]
    have hdrop : (encodeVarintTx (f * 8 + wt) ++ (payload ++ t)).drop
        (encodeUnknownField it).length = t := by
      rw [← List.append_assoc, ← henc, List.drop_left]
    simp [hfn, hfn2, hmod, hwt, hnle, hne1, hne2, hne3, hne4, hne5, hne6, hne7, hne8]
    rw [show (encodeVarintTx (f * 8 + wt)).length + (payload.length + t.length)
        = (encodeVarintTx (f * 8 + wt) ++ (payload ++ t)).length from by simp]
    rw [hskip]
    simp only [if_neg hnb, htake, hdrop]
    rw [hc]

theorem foldl_actions_tx (as : List ActionRaw) (m : TxRaw) :
    as.foldl (fun x a => { x with actions := x.actions ++ [a] }) m
      = { m with actions := m.actions ++ as } := by
  induction as generalizing m with
  | nil => simp
  | cons a rest ih => simp [ih]

theorem foldl_signers_tx (ss : List (List Nat)) (m : TxRaw) :
    ss.foldl (fun x s => { x with signers := x.signers ++ [s] }) m
      = { m with signers := m.signers ++ ss } := by
  induction ss generalizing m with
  | nil => simp
  | cons a rest ih => simp [ih]

theorem foldl_signs_tx (ss : List SignatureRaw) (m : TxRaw) :
    ss.foldl (fun x s => { x with signs := x.signs ++ [s] }) m
      = { m with signs := m.signs ++ ss } := by
  induction ss generalizing m with
  | nil => simp
  | cons a rest ih => simp [ih]

theorem foldl_unknown_tx (its : List UnknownField) (m : TxRaw) :
    its.foldl (fun x it => { x with unrecognized := x.unrecognized ++ encodeUnknownField it }) m
      = { m with unrecognized := m.unrecognized ++ encodeUnknownFields its } := by
  induction its generalizing m with
  | nil => simp [encodeUnknownFields]
  | cons it rest ih =>
    simp only [List.foldl_cons, ih, encodeUnknownFields, List.map_cons, List.flatten_cons,
      List.append_assoc]

/-- Well-formedness of a `TxRaw` for the round trip: 64-bit ranges for the
numeric fields (they are Go `int64`s), well-formed components, and a
well-formed `XXX_unrecognized` (unknown fields have numbers ≥ 9). -/
def WfTxRaw (m : TxRaw) : Prop :=
  (-(2 : Int) ^ 63 ≤ m.time ∧ m.time < 2 ^ 63) ∧
  (-(2 : Int) ^ 63 ≤ m.expiration ∧ m.expiration < 2 ^ 63) ∧
  (-(2 : Int) ^ 63 ≤ m.gasLimit ∧ m.gasLimit < 2 ^ 63) ∧
  (-(2 : Int) ^ 63 ≤ m.gasPrice ∧ m.gasPrice < 2 ^ 63) ∧
  (∀ a ∈ m.actions, WfActionRaw a) ∧
  (∀ s ∈ m.signers, s.length < 2 ^ 64) ∧
  (∀ s ∈ m.signs, WfSignatureRaw s) ∧
  (∀ s, m.publisher = some s → WfSignatureRaw s) ∧
  ∃ its : List UnknownField, m.unrecognized = encodeUnknownFields its ∧
    ∀ it ∈ its, validUnknownField 9 it = true

set_option maxHeartbeats 1600000 in
/-- The round trip of `TxRaw`, amended with the well-formedness conditions the
code actually needs (see claim C8): `Unmarshal` undoes `Marshal`. -/
theorem unmarshalTxRaw_roundtrip (m : TxRaw) (h : WfTxRaw m) :
    unmarshalTxRaw (marshalTxRaw m) = Except.ok m := by
  obtain ⟨⟨ht1, ht2⟩, ⟨he1, he2⟩, ⟨hg1, hg2⟩, ⟨hp1, hp2⟩, hacts, hsgrs, hsgs, hpb, its, hu, hvu⟩ := h
  classical
  set cs1 : List (List Nat × (TxRaw → TxRaw)) :=
    (if m.time ≠ 0 then
        [(8 :: encodeVarintTx (toUnsigned 64 m.time), fun x => { x with time := m.time })]
      else [])
    ++ ((if m.expiration ≠ 0 then
        [(16 :: encodeVarintTx (toUnsigned 64 m.expiration),
          fun x => { x with expiration := m.expiration })]
      else [])
    ++ ((if m.gasLimit ≠ 0 then
        [(24 :: encodeVarintTx (toUnsigned 64 m.gasLimit),
          fun x => { x with gasLimit := m.gasLimit })]
      else [])
    ++ ((if m.gasPrice ≠ 0 then
        [(32 :: encodeVarintTx (toUnsigned 64 m.gasPrice),
          fun x => { x with gasPrice := m.gasPrice })]
      else [])
    ++ ((m.actions.map (fun a =>
        (42 :: (encodeVarintTx (sizeActionRaw a) ++ marshalActionRaw a),
          fun x => { x with actions := x.actions ++ [a] })))
    ++ ((m.signers.map (fun s =>
        (50 :: (encodeVarintTx s.length ++ s),
          fun x => { x with signers := x.signers ++ [s] })))
    ++ (m.signs.map (fun s =>
        (58 :: (encodeVarintTx (sizeSignatureRaw s) ++ marshalSignatureRaw s),
          fun x => { x with signs := x.signs ++ [s] })))))))) with hcs1
  set csU : List (List Nat × (TxRaw → TxRaw)) :=
    its.map (fun it => (encodeUnknownField it,
      fun x => { x with unrecognized := x.unrecognized ++ encodeUnknownField it })) with hcsU
  have hsteps1 : ∀ p ∈ cs1, LoopStep unmTxLoop p.1 p.2 := by
    intro p hp
    rw [hcs1] at hp
    rcases List.mem_append.mp hp with hp | hp
    · by_cases hc : m.time ≠ 0
      · rw [if_pos hc] at hp
        simp only [List.mem_singleton] at hp
        subst hp
        exact txStep_time m.time ht1 ht2
      · rw [if_neg hc] at hp
        simp at hp
    rcases List.mem_append.mp hp with hp | hp
    · by_cases hc : m.expiration ≠ 0
      · rw [if_pos hc] at hp
        simp only [List.mem_singleton] at hp
        subst hp
        exact txStep_expiration m.expiration he1 he2
      · rw [if_neg hc] at hp
        simp at hp
    rcases List.mem_append.mp hp with hp | hp
    · by_cases hc : m.gasLimit ≠ 0
      · rw [if_pos hc] at hp
        simp only [List.mem_singleton] at hp
        subst hp
        exact txStep_gasLimit m.gasLimit hg1 hg2
      · rw [if_neg hc] at hp
        simp at hp
    rcases List.mem_append.mp hp with hp | hp
    · by_cases hc : m.gasPrice ≠ 0
      · rw [if_pos hc] at hp
        simp only [List.mem_singleton] at hp
        subst hp
        exact txStep_gasPrice m.gasPrice hp1 hp2
      · rw [if_neg hc] at hp
        simp at hp
    rcases List.mem_append.mp hp with hp | hp
    · simp only [List.mem_map] at hp
      obtain ⟨a, hma, hpe⟩ := hp
      subst hpe
      exact txStep_action a (hacts a hma)
    rcases List.mem_append.mp hp with hp | hp
    · simp only [List.mem_map] at hp
      obtain ⟨s2, hms, hpe⟩ := hp
      subst hpe
      exact txStep_signer s2 (hsgrs s2 hms)
    · simp only [List.mem_map] at hp
      obtain ⟨s2, hms, hpe⟩ := hp
      subst hpe
      exact txStep_sign s2 (hsgs s2 hms)
  have hstepsU : ∀ p ∈ csU, LoopStep unmTxLoop p.1 p.2 := by
    intro p hp
    rw [hcsU] at hp
    simp only [List.mem_map] at hp
    obtain ⟨it, hit, hpe⟩ := hp
    subst hpe
    exact txStep_unknown it (hvu it hit)
  have hsplit : marshalTxRaw m = List.flatten (cs1.map Prod.fst) ++
      ((match m.publisher with
        | some s => 66 :: (encodeVarintTx (sizeSignatureRaw s) ++ marshalSignatureRaw s)
        | none => []) ++ List.flatten (csU.map Prod.fst)) := by
    rw [hcs1, hcsU]
    unfold marshalTxRaw
    by_cases hc1 : m.time ≠ 0 <;>
      by_cases hc2 : m.expiration ≠ 0 <;>
        by_cases hc3 : m.gasLimit ≠ 0 <;>
          by_cases hc4 : m.gasPrice ≠ 0 <;>
            simp [hc1, hc2, hc3, hc4, hu, encodeUnknownFields, Function.comp_def]
  have hfold1 : cs1.foldl (fun x p => p.2 x) TxRaw.empty
      = { time := m.time, expiration := m.expiration, gasLimit := m.gasLimit,
          gasPrice := m.gasPrice, actions := m.actions, signers := m.signers,
          signs := m.signs, publisher := none, unrecognized := [] } := by
    rw [hcs1]
    simp only [List.foldl_append, List.foldl_map]
    rw [foldl_signs_tx, foldl_signers_tx, foldl_actions_tx]
    by_cases hc1 : m.time ≠ 0 <;>
      by_cases hc2 : m.expiration ≠ 0 <;>
        by_cases hc3 : m.gasLimit ≠ 0 <;>
          by_cases hc4 : m.gasPrice ≠ 0 <;>
            simp_all [TxRaw.empty]
  have hlen1 : cs1.length ≤ (List.flatten (cs1.map Prod.fst)).length :=
    length_chunks_le_flatten cs1 (fun p hp => (hsteps1 p hp).1)
  have hlenU : csU.length ≤ (List.flatten (csU.map Prod.fst)).length :=
    length_chunks_le_flatten csU (fun p hp => (hstepsU p hp).1)
  show unmTxLoop (marshalTxRaw m).length TxRaw.empty (marshalTxRaw m) = Except.ok m
  rw [hsplit]
  cases hpcase : m.publisher with
  | none =>
    simp only [List.nil_append]
    rw [loop_chunks_append unmTxLoop cs1 hsteps1 _ _ TxRaw.empty (by
      simp only [List.length_append]
      omega)]
    rw [loop_chunks unmTxLoop unmTxLoop_nil csU hstepsU _ _ (by
      simp only [List.length_append]
      omega)]
    rw [hfold1, hcsU]
    rw [List.foldl_map, foldl_unknown_tx]
    simp only [List.nil_append]
    rw [← hu, ← hpcase]
  | some s =>
    rw [loop_chunks_append unmTxLoop cs1 hsteps1 _ _ TxRaw.empty (by
      simp only [List.length_append]
      omega)]
    set F := (List.flatten (cs1.map Prod.fst) ++
      ((66 :: (encodeVarintTx (sizeSignatureRaw s) ++ marshalSignatureRaw s)) ++
        List.flatten (csU.map Prod.fst))).length - cs1.length with hF
    have hFge : csU.length + 1 ≤ F := by
      rw [hF]
      simp only [List.length_append, List.length_cons]
      omega
    obtain ⟨k, hk⟩ : ∃ k, F = k + 1 := ⟨F - 1, by omega⟩
    rw [hk]
    rw [txStep_publisher s (hpb s hpcase) k _ (by rw [hfold1]) _]
    rw [loop_chunks unmTxLoop unmTxLoop_nil csU hstepsU _ _ (by omega)]
    rw [hfold1, hcsU]
    rw [List.foldl_map, foldl_unknown_tx]
    simp only [List.nil_append]
    rw [← hu, ← hpcase]

/-! ### account/keypair.go — `NewKeyPair` (claim C10)

`crypto.Algorithm`, `GenSeckey` and `GetPubkey` live in the external crypto
collaborator (out of scope per the spec §1); the embedding takes the generator
and the pubkey-derivation as oracle parameters. -/

inductive Algorithm where
  | Secp256k1
  | Ed25519
deriving DecidableEq, Repr

structure KeyPair where
  algorithm : Algorithm
  pubkey : List Nat
  seckey : List Nat
deriving DecidableEq, Repr

/-- `account.NewKeyPair(seckey, algo)`.  `gen` models `algo.GenSeckey()` and
`gp` models `algo.GetPubkey(seckey)` (external crypto); `none` models a nil
Go slice. -/
def NewKeyPair (gen : Algorithm → List Nat) (gp : Algorithm → List Nat → List Nat)
    (seckey : Option (List Nat)) (algo : Algorithm) : Except String KeyPair :=
  let sk : List Nat :=
    match seckey with
    | none => gen algo
    | some s => s
  if (sk.length ≠ 32 ∧ algo = Algorithm.Secp256k1) ∨
     (sk.length ≠ 64 ∧ algo = Algorithm.Ed25519) then
    Except.error "seckey length error"
  else
    Except.ok { algorithm := algo, pubkey := gp algo sk, seckey := sk }

/-! ### vm/native/system.go — the `IssueIOST` ABI (claim C9) -/

/-- `contract.Cost` (declared in the contract package; the shape is visible in
the repository's contract protobuf source). -/
structure Cost where
  data : Int
  net : Int
  cpu : Int
deriving DecidableEq, Repr

/-- `contract.Cost0()`: the all-zero cost. -/
def Cost0 : Cost := { data := 0, net := 0, cpu := 0 }

/-- The balance table of the host DB, as far as `IssueIOST` touches it. -/
structure VMDB where
  balances : List (String × Int)
deriving DecidableEq, Repr

def VMDB.setBalance (db : VMDB) (acc : String) (amount : Int) : VMDB :=
  { balances := (acc, amount) :: db.balances.filter (fun p => p.1 ≠ acc) }

def VMDB.getBalance (db : VMDB) (acc : String) : Int :=
  match db.balances.find? (fun p => p.1 = acc) with
  | some p => p.2
  | none => 0

/-- The `IssueIOST` native ABI body.  `number` is the executing context's
block number (`h.Context().Value("number")`); the result is
(updated DB, returned cost, error). -/
def issueIOST (number : Int) (db : VMDB) (acc : String) (amount : Int) :
    VMDB × Cost × Option String :=
  if number ≠ 0 then
    (db, Cost0, some "issue IOST in normal block")
  else
    (db.setBalance acc amount, Cost0, none)

/-! ### core/new_txpool/tx_pool.go — the transaction pool (claims C1, C2, C6, C7)

Byte-slice hashes are abstracted to `Nat` identifiers carried on the values
(`tx.Hash()` / `block.Head.Hash()` are collision-resistant digests); the
`sync.Map`s keyed by hashes become association lists.  Go `for` loops that walk
hash-linked chains get an explicit fuel bound (the walks terminate on acyclic
hash links; fuel is an embedding artefact). -/

/-- `tx.Tx` as the pool consumes it (`Time`/`Expiration` in nanoseconds). -/
structure Tx where
  time : Int
  expiration : Int
  gasPrice : Int
  gasLimit : Int
  hash : Nat
deriving DecidableEq, Repr

/-- `block.Block` as the pool and the PoB engine consume it: head fields plus
the transaction list; `hash` is `block.Head.Hash()`. -/
structure Block where
  number : Int
  parentHash : Nat
  witness : String
  time : Int
  hash : Nat
  txs : List Tx
deriving DecidableEq, Repr

/-- `blockTx`: per-block transaction-hash set with parent link and cache time. -/
structure BlockTx where
  txHashes : List Nat
  parentHash : Nat
  cTime : Int
deriving DecidableEq, Repr

/-- `blockTx.existTx`. -/
def BlockTx.existTx (b : BlockTx) (h : Nat) : Bool :=
  b.txHashes.contains h

/-- `ForkChain` (heads are carried as the nodes' blocks; the pool only reads
`NewHead.Block` and `OldHead.Block`). `none` models nil pointers. -/
structure ForkChain where
  newHead : Option Block
  oldHead : Option Block
  forkBlockHash : Option Nat
deriving DecidableEq, Repr

/-- The mutable state of `TxPoolImpl` (`pendingTx`, `blockList`, `forkChain`). -/
structure TxPoolState where
  pendingTx : List (Nat × Tx)
  blockList : List (Nat × BlockTx)
  forkChain : ForkChain
deriving DecidableEq, Repr

/-- The pool's read-only collaborators: `pool.chain` (the block cache, whose
`FindBlock` also consults the chain store) and, for stating claim C2, the
underlying chain store contents themselves. -/
structure PoolChain where
  findBlock : Nat → Option Block
  linkedRootParentHash : Nat
  storeBlocks : List Block

/-- `expiration` of tx_pool.go (seconds). -/
def expirationSec : Int := 60

/-- `filterTime = expiration + expiration/2` of tx_pool.go. -/
def filterTime : Int := expirationSec + expirationSec / 2

/-- Modelled from the spec: `consensus_common.Timestamp{Slot: t}.ToUnixSec()`.
The spec's glossary defines a slot as 3 seconds, so slot `t` starts at second
`3 * t` (the epoch offset is irrelevant to every claim). -/
def slotToSec (t : Int) : Int := 3 * t

/-- `pool.existTxInPending`. -/
def existTxInPending (p : TxPoolState) (h : Nat) : Bool :=
  (p.pendingTx.find? (fun q => q.1 = h)).isSome

/-- `pool.block`. -/
def blockOf (p : TxPoolState) (h : Nat) : Option BlockTx :=
  (p.blockList.find? (fun q => q.1 = h)).map Prod.snd

/-- `pool.parentHash`. -/
def parentHashOf (p : TxPoolState) (h : Nat) : Option Nat :=
  (blockOf p h).map BlockTx.parentHash

/-- `pool.existTxInBlock`. -/
def existTxInBlock (p : TxPoolState) (txHash blockHash : Nat) : Bool :=
  match blockOf p blockHash with
  | none => false
  | some b => b.existTx txHash

/-- The `for` loop of `pool.existTxInChain` (`h` is the current block hash,
`t` the slot-seconds of the query block). -/
def existTxInChainGo (p : TxPoolState) (txHash : Nat) (t : Int) :
    Nat → Nat → Bool
  | 0, _ => false
  | fuel + 1, h =>
    if existTxInBlock p txHash h then true
    else
      match parentHashOf p h with
      | none => false
      | some h2 =>
        match blockOf p h2 with
        | some b =>
          if t - b.cTime > filterTime then false
          else existTxInChainGo p txHash t fuel h2
        | none => existTxInChainGo p txHash t fuel h2

/-- `pool.existTxInChain`. -/
def existTxInChain (fuel : Nat) (p : TxPoolState) (txHash : Nat) (blk : Block) : Bool :=
  existTxInChainGo p txHash (slotToSec blk.time) fuel blk.hash

/-- `pendingTx.Store(h, tx)` (association-list update). -/
def insertPending (p : TxPoolState) (t : Tx) : TxPoolState :=
  { p with pendingTx := (t.hash, t) :: p.pendingTx.filter (fun q => q.1 ≠ t.hash) }

/-- `pool.addTx`.  A nil `forkChain.NewHead` would make the Go code crash on
`pool.forkChain.NewHead.Block`; that case is modelled as a no-op and is never
exercised by the claims. -/
def addTxP (fuel : Nat) (p : TxPoolState) (t : Tx) : TxPoolState :=
  match p.forkChain.newHead with
  | none => p
  | some hd =>
    if ¬ existTxInChain fuel p t.hash hd ∧ ¬ existTxInPending p t.hash then
      insertPending p t
    else p

/-- `pool.txTimeOut` (`nTime` is `time.Now().Unix()`, passed in). -/
def txTimeOut (nTime : Int) (t : Tx) : Bool :=
  let txTime := Int.tdiv t.time 1000000000
  let exTime := Int.tdiv t.expiration 1000000000
  if exTime ≤ nTime then true
  else if nTime - txTime > expirationSec then true
  else false

/-- `pool.delTxInPending`. -/
def delTxInPending (p : TxPoolState) (h : Nat) : TxPoolState :=
  { p with pendingTx := p.pendingTx.filter (fun q => q.1 ≠ h) }

/-- `pool.delBlockTxInPending` (always returns nil in Go). -/
def delBlockTxInPending (p : TxPoolState) (h : Nat) : TxPoolState :=
  match blockOf p h with
  | none => p
  | some b => b.txHashes.foldl delTxInPending p

/-- `pool.addBlock` (always returns nil in Go). -/
def addBlockP (p : TxPoolState) (blk : Block) : TxPoolState :=
  if (blockOf p blk.hash).isSome then p
  else
    { p with blockList :=
        (blk.hash,
          { txHashes := blk.txs.map Tx.hash, parentHash := blk.parentHash,
            cTime := slotToSec blk.time }) :: p.blockList }

/-- `pool.clearTxPending` (replaces `pendingTx` by a fresh map). -/
def clearTxPending (p : TxPoolState) : TxPoolState :=
  { p with pendingTx := [] }

/-- The inner `for` of `pool.fundBlockInChain`. -/
def fundBlockInChainGo (p : TxPoolState) (h : Nat) : Nat → Nat → Option Nat
  | 0, _ => none
  | fuel + 1, c =>
    match blockOf p c with
    | none => none
    | some b => if b.parentHash = h then some h else fundBlockInChainGo p h fuel b.parentHash

/-- `pool.fundBlockInChain`. -/
def fundBlockInChain (fuel : Nat) (p : TxPoolState) (h c : Nat) : Option Nat :=
  if h = c then some h else fundBlockInChainGo p h fuel c

/-- The `for` of `pool.fundForkBlockHash` (augments `blockList` from
`pool.chain.FindBlock` as needed). -/
def fundForkBlockHashGo (O : PoolChain) (o : Nat) :
    Nat → TxPoolState → Nat → TxPoolState × Option Nat
  | 0, p, _ => (p, none)
  | fuel + 1, p, n =>
    match fundBlockInChain (fuel + 1) p n o with
    | some forkHash => (p, some forkHash)
    | none =>
      let pb : TxPoolState × Option BlockTx :=
        match blockOf p n with
        | some b => (p, some b)
        | none =>
          match O.findBlock n with
          | none => (p, none)
          | some bb =>
            let p2 := addBlockP p bb
            (p2, blockOf p2 n)
      match pb with
      | (p2, none) => (p2, none)
      | (p2, some b) =>
        if O.linkedRootParentHash = b.parentHash then (p2, none)
        else fundForkBlockHashGo O o fuel p2 b.parentHash

/-- `pool.fundForkBlockHash`. -/
def fundForkBlockHash (O : PoolChain) (fuel : Nat) (p : TxPoolState) (newHash oldHash : Nat) :
    TxPoolState × Option Nat :=
  if newHash = oldHash then (p, some newHash)
  else fundForkBlockHashGo O oldHash fuel p newHash

/-- `TFork`. -/
inductive TFork where
  | NotFork
  | Fork
  | ForkError
deriving DecidableEq, Repr

/-- `pool.updateForkChain`. -/
def updateForkChain (O : PoolChain) (fuel : Nat) (p : TxPoolState) (headNode : Block) :
    TxPoolState × TFork :=
  match p.forkChain.newHead with
  | none =>
    ({ p with forkChain := { p.forkChain with newHead := some headNode } }, TFork.NotFork)
  | some nh =>
    if nh.hash = headNode.parentHash then
      ({ p with forkChain := { p.forkChain with newHead := some headNode } }, TFork.NotFork)
    else
      let p1 := { p with forkChain :=
        { newHead := some headNode, oldHead := some nh,
          forkBlockHash := p.forkChain.forkBlockHash } }
      match fundForkBlockHash O fuel p1 headNode.hash nh.hash with
      | (p2, none) => (p2, TFork.ForkError)
      | (p2, some h) =>
        ({ p2 with forkChain := { p2.forkChain with forkBlockHash := some h } }, TFork.Fork)

/-- The "Reply to txs" loop of `pool.doChainChange` (walks the abandoned
branch through `pool.chain.FindBlock`, re-admitting its transactions). -/
def replyLoop (O : PoolChain) (walkFuel : Nat) (f : Nat) :
    Nat → TxPoolState → Nat → TxPoolState × Bool
  | 0, p, _ => (p, false)
  | fuel + 1, p, o =>
    match O.findBlock o with
    | none => (p, false)
    | some b =>
      let p2 := b.txs.foldl (addTxP walkFuel) p
      if b.parentHash = f then (p2, true)
      else replyLoop O walkFuel f fuel p2 b.parentHash

/-- The "Duplicate txs" loop of `pool.doChainChange` (walks the new branch
through `blockList`, removing its transactions from `pending`). -/
def dupLoop (f : Nat) : Nat → TxPoolState → Nat → TxPoolState × Bool
  | 0, p, _ => (p, false)
  | fuel + 1, p, n =>
    match blockOf p n with
    | none => (p, false)
    | some b =>
      let p2 := b.txHashes.foldl delTxInPending p
      if b.parentHash = f then (p2, true)
      else dupLoop f fuel p2 b.parentHash

/-- `pool.doChainChange` (the Bool is success; on `false` Go returns an
error).  A nil head or fork hash would crash in Go; modelled as failure. -/
def doChainChange (O : PoolChain) (fuel : Nat) (p : TxPoolState) : TxPoolState × Bool :=
  match p.forkChain.newHead, p.forkChain.oldHead, p.forkChain.forkBlockHash with
  | some nh, some oh, some f =>
    let r1 := replyLoop O fuel f fuel p oh.hash
    if r1.2 then dupLoop f fuel r1.1 nh.hash else (r1.1, false)
  | _, _, _ => (p, false)

/-- The `chLinkedNode` case of `pool.loop` (one `AddLinkedNode` notification
processed; `pool.addBlock` never errors, so its `continue` branch is dead). -/
def processLinkedNode (O : PoolChain) (fuel : Nat) (p : TxPoolState)
    (linkedBlock headNode : Block) : TxPoolState :=
  let p1 := addBlockP p linkedBlock
  match updateForkChain O fuel p1 headNode with
  | (p2, TFork.ForkError) => clearTxPending p2
  | (p2, TFork.Fork) =>
    match doChainChange O fuel p2 with
    | (p3, true) => p3
    | (p3, false) => clearTxPending p3
  | (p2, TFork.NotFork) => delBlockTxInPending p2 linkedBlock.hash

/-- The `chTx` case of `pool.loop` (one received transaction message;
`decoded = none` models a failing `tx.Decode`, `verifySelf` is the
transaction's signature check `tx.VerifySelf`, `nTime` the current Unix
seconds).  NOTE the condition is the source's literal
`if tx.VerifySelf() != nil { pool.addTx(&tx) }`. -/
def processRecvTx (verifySelf : Tx → Option String) (nTime : Int) (fuel : Nat)
    (p : TxPoolState) (decoded : Option Tx) : TxPoolState :=
  match decoded with
  | none => p
  | some t =>
    if txTimeOut nTime t then p
    else if (verifySelf t).isSome then addTxP fuel p t
    else p

/-- `FRet`. -/
inductive FRet where
  | NotFound
  | FoundPending
  | FoundChain
deriving DecidableEq, Repr

/-- `pool.ExistTxs` (the error component is always nil in Go). -/
def ExistTxs (fuel : Nat) (p : TxPoolState) (h : Nat) (chainBlock : Block) : FRet :=
  if existTxInPending p h then FRet.FoundPending
  else if existTxInChain fuel p h chainBlock then FRet.FoundChain
  else FRet.NotFound

/-- Whether the underlying chain store holds a block containing the
transaction — the check the SPEC says `ExistTxs` performs last (claim C2);
the code of `existTxInChain` never consults the store. -/
def storeHasTx (O : PoolChain) (h : Nat) : Bool :=
  O.storeBlocks.any (fun b => b.txs.any (fun t => t.hash = h))

/-- `TxsList.Less` of tx_pool.go. -/
def txLess (a b : Tx) : Bool :=
  if a.gasPrice > b.gasPrice then true
  else if a.gasPrice = b.gasPrice then
    (if a.time > b.time then false else true)
  else false

/-- The order `TxsList.Less` decides, as a relation. -/
def txLe (a b : Tx) : Prop := txLess a b = true

instance : DecidableRel txLe := fun a b => by
  unfold txLe
  infer_instance

instance : IsTotal Tx txLe := ⟨by
  intro a b
  unfold txLe txLess
  rcases lt_trichotomy a.gasPrice b.gasPrice with h | h | h
  · right
    simp [h, not_lt.mpr (le_of_lt h), ne_of_lt h]
  · rcases le_or_lt a.time b.time with ht | ht
    · left
      simp [h, lt_irrefl, not_lt.mpr (le_of_eq h.symm)]
      omega
    · right
      simp [h, lt_irrefl, not_lt.mpr (le_of_eq h)]
      omega
  · left
    simp [h]⟩

instance : IsTrans Tx txLe := ⟨by
  intro a b c hab hbc
  unfold txLe txLess at *
  rcases lt_trichotomy a.gasPrice b.gasPrice with h1 | h1 | h1 <;>
    rcases lt_trichotomy b.gasPrice c.gasPrice with h2 | h2 | h2 <;>
      simp_all <;> omega⟩

/-- What `TxsList.Less` decides, in order terms: gasPrice descending, ties
broken by time ascending. -/
theorem txLe_iff {a b : Tx} :
    txLe a b ↔ (b.gasPrice < a.gasPrice ∨ (a.gasPrice = b.gasPrice ∧ a.time ≤ b.time)) := by
  unfold txLe txLess
  rcases lt_trichotomy a.gasPrice b.gasPrice with h | h | h
  · rw [if_neg (by omega), if_neg (by omega)]
    simp
    omega
  · rw [if_neg (by omega), if_pos h]
    by_cases ht : a.time > b.time
    · rw [if_pos ht]
      simp
      omega
    · rw [if_neg ht]
      simp
      omega
  · rw [if_pos h]
    simp
    omega

/-- The result of `pool.PendingTxs`.  The Go signature is
`(TxsList, error)`: it carries NO BlockCache head; the constant `head := none`
field exists solely so the spec's pairing assertion (claim C7) can be stated
against the embedding. -/
structure PendingTxsRet where
  txs : List Tx
  head : Option Block
  err : Option String
deriving DecidableEq, Repr

/-- `pool.PendingTxs`.  `sort.Sort(pendingList)` is modelled as insertion sort
with the source's `TxsList.Less`; `pendingList[:len]` with
`len = min(len(pendingList), maxCnt)` is `take maxCnt`. -/
def PendingTxs (p : TxPoolState) (maxCnt : Nat) : PendingTxsRet :=
  let pendingList := List.insertionSort txLe (p.pendingTx.map Prod.snd)
  { txs := pendingList.take maxCnt, head := none, err := none }

/-! ### consensus/pob/pob.go — block ingestion (claims C3, C4, C5)

The block cache is modelled as a list of nodes keyed by head hash; its
operations `Find`/`Add`/`Link`/`Del` and `UpdateLib`'s pruning are modelled
from the spec (§4.1) since blockcache.go is not part of the studied sources.
External collaborators (`verifyBasics`'s crypto checks, the VM behind
`verifyBlock`, the MVCC DB behind `Checkout`, `UpdateLib`'s confirmation rule)
are oracle parameters. -/

/-- `blockcache` node types. -/
inductive NType where
  | Single
  | Linked
deriving DecidableEq, Repr

/-- `blockcache.BlockCacheNode`, as far as pob.go reads it. -/
structure CNode where
  blk : Block
  typ : NType
  serialNum : Int
deriving DecidableEq, Repr

/-- `blockCache.Find` (modelled from the spec §4.1). -/
def findNode (st : List CNode) (h : Nat) : Option CNode :=
  st.find? (fun n => n.blk.hash = h)

/-- Modelled from the spec §4.1: `blockCache.Add` inserts the block as a
Single node (parent/child splicing is implicit in the hash links). -/
def cacheAdd (st : List CNode) (blk : Block) : List CNode :=
  st ++ [{ blk := blk, typ := NType.Single, serialNum := 0 }]

/-- Modelled from the spec §4.1: `blockCache.Link` marks the node Linked (the
recursive re-linking of children is performed by the caller
`addExistingBlock`, pob.go lines 384-386). -/
def cacheLink (st : List CNode) (h : Nat) : List CNode :=
  st.map (fun n => if n.blk.hash = h then { n with typ := NType.Linked } else n)

/-- `node.SerialNum = ...` (a field write through the node pointer). -/
def cacheSetSerial (st : List CNode) (h : Nat) (sn : Int) : List CNode :=
  st.map (fun n => if n.blk.hash = h then { n with serialNum := sn } else n)

/-- Modelled from the spec §4.1: `blockCache.Del` removes the node. -/
def cacheDel (st : List CNode) (h : Nat) : List CNode :=
  st.filter (fun n => n.blk.hash ≠ h)

/-- Modelled from the spec: `slotOfSec` — a slot covers
`blockNumPerWitness × subSlotTime = 3` seconds (glossary). -/
def slotOfSec (sec : Int) : Int := Int.tdiv sec 3

/-- `blockNumPerWitness`. -/
def blockNumPerWitness : Int := 6

/-- The errors of pob.go (`nil` is modelled as `none`); `fuelOut` and
`findErr` are artefacts of the embedding (a dead `Find` result pob.go
ignores, and the explicit recursion bound). -/
inductive PobErr where
  | single
  | duplicate
  | outOfLimit
  | verifyBasics
  | verifyState
  | findErr
  | fuelOut
deriving DecidableEq, Repr

/-- The external collaborators of the PoB ingestion path. -/
structure PobOracle where
  verifyBasics : Block → Bool
  committed : Nat → Bool
  verifyBlock : Block → Bool
  libDrop : List CNode → List Nat

/-- The serial number `addExistingBlock` assigns: 0 on a witness or slot
change, else the parent's serial number plus one (pob.go lines 357-362,
`common.SlotOfUnixNano` divides the nanosecond time by `1e9` then by
`SlotTime`). -/
def stepSn (parentNode : CNode) (blk : Block) : Int :=
  if parentNode.blk.witness ≠ blk.witness ∨
      slotOfSec (Int.tdiv parentNode.blk.time 1000000000) ≠
        slotOfSec (Int.tdiv blk.time 1000000000) then 0
  else parentNode.serialNum + 1

/-- One `addExistingBlock` body on a single node, WITHOUT the recursion over
children: returns the new cache, the call's error, and the child work items
(each child paired with the freshly linked parent node), in source order:
compute `serialNum`; reject with `errOutOfLimit` if it reaches
`blockNumPerWitness`; skip re-execution when the verifyDB already holds a
commit for this hash, else verify (failure deletes the node); `Link`;
`UpdateLib` (modelled as pruning by the oracle); collect `node.Children`. -/
def aebStep (O : PobOracle) (st : List CNode) (blk : Block) (parentNode : CNode) :
    List CNode × Option PobErr × List (Block × CNode) :=
  match findNode st blk.hash with
  | none => (st, some PobErr.findErr, [])
  | some _ =>
    let sn : Int := stepSn parentNode blk
    let st1 := cacheSetSerial st blk.hash sn
    if blockNumPerWitness ≤ sn then (st1, some PobErr.outOfLimit, [])
    else if O.committed blk.hash ∨ O.verifyBlock blk then
      let st2 := cacheLink st1 blk.hash
      let st3 := (O.libDrop st2).foldl cacheDel st2
      let nodeNow : CNode := { blk := blk, typ := NType.Linked, serialNum := sn }
      let children := st3.filter (fun c => c.blk.parentHash = blk.hash)
      (st3, none, children.map (fun c => (c.blk, nodeNow)))
    else (cacheDel st1 blk.hash, some PobErr.verifyState, [])

/-- Depth-first processing of the child work items (the recursion
`for child := range node.Children { p.addExistingBlock(child.Block, node, replay) }`;
child errors are discarded by the source).  Fuel makes the recursion
structural. -/
def aebQueue (O : PobOracle) : Nat → List CNode → List (Block × CNode) → List CNode
  | 0, st, _ => st
  | _ + 1, st, [] => st
  | fuel + 1, st, (b, par) :: q =>
    let r := aebStep O st b par
    aebQueue O fuel r.1 (r.2.2 ++ q)

/-- `p.addExistingBlock(blk, parentNode, replay)`: the top call's own error is
returned; its children are then processed depth-first. -/
def addExistingBlock (O : PobOracle) (fuel : Nat) (st : List CNode) (blk : Block)
    (parentNode : CNode) : List CNode × Option PobErr :=
  let r := aebStep O st blk parentNode
  (aebQueue O fuel r.1 r.2.2, r.2.1)

/-- `p.handleRecvBlock(blk)` (`none` = Go's nil error). -/
def handleRecvBlock (O : PobOracle) (fuel : Nat) (st : List CNode) (blk : Block) :
    List CNode × Option PobErr :=
  if (findNode st blk.hash).isSome then (st, some PobErr.duplicate)
  else if ¬ O.verifyBasics blk then (st, some PobErr.verifyBasics)
  else
    let parentOpt := findNode st blk.parentHash
    let st1 := cacheAdd st blk
    match parentOpt with
    | some parent =>
      if parent.typ = NType.Linked then addExistingBlock O fuel st1 blk parent
      else (st1, some PobErr.single)
    | none => (st1, some PobErr.single)

/-- `msgpb.BlockInfo` as broadcast by `broadcastBlockHash`. -/
structure BlockInfo where
  number : Int
  hash : Nat
deriving DecidableEq, Repr

/-- The block-message tags doVerifyBlock dispatches on. -/
inductive P2PType where
  | NewBlock
  | SyncBlockResponse
deriving DecidableEq, Repr

/-- `p.doVerifyBlock(blkMsg)`: returns the new cache, `handleRecvBlock`'s
error and the list of `NewBlockHash` gossips broadcast (`broadcastBlockHash`;
`proto.Marshal` of a `BlockInfo` cannot fail). -/
def doVerifyBlock (O : PobOracle) (fuel : Nat) (st : List CNode) (blk : Block)
    (p2pType : P2PType) : List CNode × Option PobErr × List BlockInfo :=
  match p2pType with
  | P2PType.NewBlock =>
    let r := handleRecvBlock O fuel st blk
    let bcast : List BlockInfo :=
      if r.2 = some PobErr.single ∨ r.2 = none then
        [{ number := blk.number, hash := blk.hash }]
      else []
    (r.1, r.2, bcast)
  | P2PType.SyncBlockResponse =>
    let r := handleRecvBlock O fuel st blk
    (r.1, r.2, [])

/-! ### The serial-number invariant (claim C3)

`SerialInv` is the claimed invariant; `UniqueH` (head hashes identify nodes,
as the arena of §9 guarantees) and `ParentLinkedInv` (spec §8 invariant 1:
a Linked node's parent is Linked) are the auxiliary invariants that make it
inductive. -/

def SerialInv (st : List CNode) : Prop :=
  ∀ n ∈ st, n.typ = NType.Linked → n.serialNum < blockNumPerWitness

def UniqueH (st : List CNode) : Prop :=
  List.Pairwise (fun a b : CNode => a.blk.hash ≠ b.blk.hash) st

def ParentLinkedInv (st : List CNode) : Prop :=
  ∀ n ∈ st, n.typ = NType.Linked →
    ∀ pe ∈ st, pe.blk.hash = n.blk.parentHash → pe.typ = NType.Linked

def CacheInv (st : List CNode) : Prop :=
  UniqueH st ∧ SerialInv st ∧ ParentLinkedInv st

/-- A pending work item is sound: the cache's node for the block (if any) is
Single and carries that very block, and the cache's node for its parent (if
any) is Linked. -/
def QItemOK (st : List CNode) (it : Block × CNode) : Prop :=
  (∀ n ∈ st, n.blk.hash = it.1.hash → n.typ = NType.Single ∧ n.blk = it.1) ∧
  (∀ n ∈ st, n.blk.hash = it.1.parentHash → n.typ = NType.Linked)

theorem uniqueH_eq {st : List CNode} (hu : UniqueH st) :
    ∀ a ∈ st, ∀ b ∈ st, a.blk.hash = b.blk.hash → a = b := by
  induction st with
  | nil => simp
  | cons x xs ih =>
    intro a ha b hb he
    rcases List.pairwise_cons.mp hu with ⟨hx, hxs⟩
    rcases List.mem_cons.mp ha with ha | ha <;> rcases List.mem_cons.mp hb with hb | hb
    · rw [ha, hb]
    · exact absurd (by rw [← ha]; exact he) (hx b hb)
    · exact absurd (by rw [← hb]; exact he.symm) (hx a ha)
    · exact ih hxs a ha b hb he

/-- The node update performed by `cacheSetSerial` then `cacheLink` on the same
hash. -/
def updLink (h : Nat) (sn : Int) (n : CNode) : CNode :=
  if n.blk.hash = h then { n with typ := NType.Linked, serialNum := sn } else n

theorem link_setSerial_eq (st : List CNode) (h : Nat) (sn : Int) :
    cacheLink (cacheSetSerial st h sn) h = st.map (updLink h sn) := by
  unfold cacheLink cacheSetSerial
  rw [List.map_map]
  apply List.map_congr_left
  intro n _
  simp only [Function.comp_apply, updLink]
  by_cases hn : n.blk.hash = h <;> simp [hn]

theorem updLink_blk (h : Nat) (sn : Int) (n : CNode) : (updLink h sn n).blk = n.blk := by
  unfold updLink
  split <;> rfl

theorem mem_foldl_cacheDel {n : CNode} : ∀ (drops : List Nat) (st : List CNode),
    n ∈ drops.foldl cacheDel st → n ∈ st := by
  intro drops
  induction drops with
  | nil => intro st h; exact h
  | cons d ds ih =>
    intro st h
    have := ih (cacheDel st d) h
    exact List.mem_of_mem_filter this

theorem uniqueH_foldl_cacheDel : ∀ (drops : List Nat) (st : List CNode),
    UniqueH st → UniqueH (drops.foldl cacheDel st) := by
  intro drops
  induction drops with
  | nil => intro st h; exact h
  | cons d ds ih =>
    intro st h
    exact ih (cacheDel st d) (List.Pairwise.filter _ h)

theorem uniqueH_map_updLink (st : List CNode) (h : Nat) (sn : Int) (hu : UniqueH st) :
    UniqueH (st.map (updLink h sn)) := by
  unfold UniqueH at *
  rw [List.pairwise_map]
  exact hu.imp (by
    intro a b hab
    rw [updLink_blk, updLink_blk]
    exact hab)

theorem cacheSetSerial_mem {st : List CNode} {h : Nat} {sn : Int} {n : CNode}
    (hn : n ∈ cacheSetSerial st h sn) :
    ∃ n0 ∈ st, (n0.blk.hash = h ∧ n = { n0 with serialNum := sn }) ∨
      (n0.blk.hash ≠ h ∧ n = n0) := by
  unfold cacheSetSerial at hn
  rcases List.mem_map.mp hn with ⟨n0, hn0, he⟩
  refine ⟨n0, hn0, ?_⟩
  by_cases hh : n0.blk.hash = h
  · left
    rw [if_pos hh] at he
    exact ⟨hh, he.symm⟩
  · right
    rw [if_neg hh] at he
    exact ⟨hh, he.symm⟩

theorem findNode_some {st : List CNode} {h : Nat} {nd : CNode}
    (hf : findNode st h = some nd) : nd ∈ st ∧ nd.blk.hash = h := by
  unfold findNode at hf
  refine ⟨List.mem_of_find?_eq_some hf, ?_⟩
  have := List.find?_some hf
  simpa using this

theorem findNode_none {st : List CNode} {h : Nat}
    (hf : findNode st h = none) : ∀ n ∈ st, n.blk.hash ≠ h := by
  unfold findNode at hf
  intro n hn
  have := List.find?_eq_none.mp hf n hn
  simpa using this

/-- The cache after the `Link` of a successful `addExistingBlock` body,
including `updateLib`'s pruning. -/
def stepOkState (O : PobOracle) (st : List CNode) (h : Nat) (sn : Int) : List CNode :=
  (O.libDrop (st.map (updLink h sn))).foldl cacheDel (st.map (updLink h sn))

theorem aebStep_none (O : PobOracle) (st : List CNode) (blk : Block) (parentNode : CNode)
    (h : findNode st blk.hash = none) :
    aebStep O st blk parentNode = (st, some PobErr.findErr, []) := by
  unfold aebStep
  rw [h]

theorem aebStep_limit (O : PobOracle) (st : List CNode) (blk : Block) (parentNode : CNode)
    (nd : CNode) (h : findNode st blk.hash = some nd)
    (hl : blockNumPerWitness ≤ stepSn parentNode blk) :
    aebStep O st blk parentNode =
      (cacheSetSerial st blk.hash (stepSn parentNode blk), some PobErr.outOfLimit, []) := by
  unfold aebStep
  rw [h]
  simp only [if_pos hl]

theorem aebStep_fail (O : PobOracle) (st : List CNode) (blk : Block) (parentNode : CNode)
    (nd : CNode) (h : findNode st blk.hash = some nd)
    (hl : ¬ blockNumPerWitness ≤ stepSn parentNode blk)
    (hv : ¬ (O.committed blk.hash ∨ O.verifyBlock blk)) :
    aebStep O st blk parentNode =
      (cacheDel (cacheSetSerial st blk.hash (stepSn parentNode blk)) blk.hash,
       some PobErr.verifyState, []) := by
  unfold aebStep
  rw [h]
  simp only [if_neg hl, if_neg hv]

theorem aebStep_ok (O : PobOracle) (st : List CNode) (blk : Block) (parentNode : CNode)
    (nd : CNode) (h : findNode st blk.hash = some nd)
    (hl : ¬ blockNumPerWitness ≤ stepSn parentNode blk)
    (hv : O.committed blk.hash ∨ O.verifyBlock blk) :
    aebStep O st blk parentNode =
      (stepOkState O st blk.hash (stepSn parentNode blk), none,
       ((stepOkState O st blk.hash (stepSn parentNode blk)).filter
           (fun c => c.blk.parentHash = blk.hash)).map
         (fun c => (c.blk,
           { blk := blk, typ := NType.Linked, serialNum := stepSn parentNode blk }))) := by
  unfold aebStep stepOkState
  rw [h]
  simp only [if_neg hl, if_pos hv, link_setSerial_eq]

theorem mem_stepOkState {O : PobOracle} {st : List CNode} {h : Nat} {sn : Int} {m : CNode}
    (hm : m ∈ stepOkState O st h sn) : ∃ n ∈ st, m = updLink h sn n := by
  unfold stepOkState at hm
  have := mem_foldl_cacheDel _ _ hm
  exact List.mem_map.mp this |>.imp (fun n hn => ⟨hn.1, hn.2.symm⟩)

theorem updLink_cases (h : Nat) (sn : Int) (n : CNode) :
    (n.blk.hash = h ∧ updLink h sn n = { n with typ := NType.Linked, serialNum := sn }) ∨
    (n.blk.hash ≠ h ∧ updLink h sn n = n) := by
  unfold updLink
  by_cases hh : n.blk.hash = h
  · exact Or.inl ⟨hh, by rw [if_pos hh]⟩
  · exact Or.inr ⟨hh, by rw [if_neg hh]⟩

theorem uniqueH_cacheSetSerial (st : List CNode) (h : Nat) (sn : Int) (hu : UniqueH st) :
    UniqueH (cacheSetSerial st h sn) := by
  unfold UniqueH cacheSetSerial at *
  rw [List.pairwise_map]
  refine hu.imp ?_
  intro a b hab
  by_cases ha : a.blk.hash = h <;> by_cases hb : b.blk.hash = h
  · exact absurd (ha.trans hb.symm) hab
  · simpa [ha, hb] using fun he => hab (ha.trans he)
  · simpa [ha, hb] using fun he => hab (he.trans hb.symm)
  · simpa [ha, hb] using hab

/-- `cacheSetSerial` keeps each node's block and type, and keeps the serial
number of every node that was not retargeted — in particular of every node
that stays Linked when all nodes at the written hash are Single. -/
theorem shape_setSerial (st : List CNode) (h : Nat) (sn : Int)
    (hSingle : ∀ n ∈ st, n.blk.hash = h → n.typ = NType.Single) :
    ∀ m ∈ cacheSetSerial st h sn, ∃ n ∈ st, m.blk = n.blk ∧ m.typ = n.typ ∧
      (m.typ = NType.Linked → m.serialNum = n.serialNum) := by
  intro m hm
  rcases cacheSetSerial_mem hm with ⟨n0, hn0, hc⟩
  rcases hc with ⟨hh, he⟩ | ⟨hh, he⟩
  · refine ⟨n0, hn0, by rw [he], by rw [he], ?_⟩
    intro hL
    have hS : m.typ = NType.Single := by rw [he]; exact hSingle n0 hn0 hh
    rw [hS] at hL
    exact NType.noConfusion hL
  · exact ⟨n0, hn0, by rw [he], by rw [he], fun _ => by rw [he]⟩

/-- The two auxiliary invariants transfer along any block- and type-preserving
(and, on Linked nodes, serial-preserving) origin map. -/
theorem cacheInv_of_shape {st st' : List CNode}
    (hmem : ∀ m ∈ st', ∃ n ∈ st, m.blk = n.blk ∧ m.typ = n.typ ∧
      (m.typ = NType.Linked → m.serialNum = n.serialNum))
    (hs : SerialInv st) (hp : ParentLinkedInv st) :
    SerialInv st' ∧ ParentLinkedInv st' := by
  constructor
  · intro m hm hL
    rcases hmem m hm with ⟨n, hn, _, ht, hser⟩
    rw [hser hL]
    exact hs n hn (by rw [← ht]; exact hL)
  · intro m hm hL pe hpe hh
    rcases hmem m hm with ⟨n, hn, hb, ht, _⟩
    rcases hmem pe hpe with ⟨p, hpm, hpb, hpt, _⟩
    rw [hpt]
    exact hp n hn (by rw [← ht]; exact hL) p hpm (by rw [← hpb, hh, hb])

theorem qItemOK_of_shape {st st' : List CNode}
    (hmem : ∀ m ∈ st', ∃ n ∈ st, m.blk = n.blk ∧ m.typ = n.typ)
    {it : Block × CNode} (hit : QItemOK st it) : QItemOK st' it := by
  constructor
  · intro m hm hh
    rcases hmem m hm with ⟨n, hn, hb, ht⟩
    have := hit.1 n hn (by rw [← hb]; exact hh)
    exact ⟨by rw [ht]; exact this.1, by rw [hb]; exact this.2⟩
  · intro m hm hh
    rcases hmem m hm with ⟨n, hn, hb, ht⟩
    rw [ht]
    exact hit.2 n hn (by rw [← hb]; exact hh)

/-- One `addExistingBlock` body preserves the cache invariant, produces only
sound pairwise-distinct child work items, and leaves every other sound work
item sound and distinct from the children it emits. -/
theorem aebStep_master (O : PobOracle) (st : List CNode) (blk : Block) (parentNode : CNode)
    (hinv : CacheInv st) (hit : QItemOK st (blk, parentNode)) :
    CacheInv (aebStep O st blk parentNode).1 ∧
    (∀ kid ∈ (aebStep O st blk parentNode).2.2, QItemOK (aebStep O st blk parentNode).1 kid) ∧
    List.Pairwise (fun a b : Block × CNode => a.1.hash ≠ b.1.hash)
      (aebStep O st blk parentNode).2.2 ∧
    (∀ it2 : Block × CNode, QItemOK st it2 → it2.1.hash ≠ blk.hash →
      QItemOK (aebStep O st blk parentNode).1 it2 ∧
      ∀ kid ∈ (aebStep O st blk parentNode).2.2, kid.1.hash ≠ it2.1.hash) := by
  obtain ⟨hu, hs, hp⟩ := hinv
  cases hfind : findNode st blk.hash with
  | none =>
    rw [aebStep_none O st blk parentNode hfind]
    exact ⟨⟨hu, hs, hp⟩, by simp, by simp, fun it2 h2 _ => ⟨h2, by simp⟩⟩
  | some nd =>
    obtain ⟨hndMem, hndHash⟩ := findNode_some hfind
    obtain ⟨hndS, hndBlk⟩ := hit.1 nd hndMem hndHash
    have hppne : blk.parentHash ≠ blk.hash := by
      intro he
      have hL := hit.2 nd hndMem (by rw [hndHash]; exact he.symm)
      rw [hndS] at hL
      exact NType.noConfusion hL
    have hSingle : ∀ n ∈ st, n.blk.hash = blk.hash → n.typ = NType.Single :=
      fun n hn hh => (hit.1 n hn hh).1
    by_cases hlim : blockNumPerWitness ≤ stepSn parentNode blk
    · rw [aebStep_limit O st blk parentNode nd hfind hlim]
      have hshape := shape_setSerial st blk.hash (stepSn parentNode blk) hSingle
      have hu' := uniqueH_cacheSetSerial st blk.hash (stepSn parentNode blk) hu
      obtain ⟨hs', hp'⟩ := cacheInv_of_shape hshape hs hp
      refine ⟨⟨hu', hs', hp'⟩, by simp, by simp, fun it2 h2 _ => ⟨?_, by simp⟩⟩
      exact qItemOK_of_shape
        (fun m hm => (hshape m hm).imp (fun n h => ⟨h.1, h.2.1, h.2.2.1⟩)) h2
    · by_cases hver : O.committed blk.hash ∨ O.verifyBlock blk
      · -- the success path: the node is linked and its children are collected
        rw [aebStep_ok O st blk parentNode nd hfind hlim hver]
        have hsn6 : stepSn parentNode blk < blockNumPerWitness := lt_of_not_le hlim
        have hmem3 : ∀ m ∈ stepOkState O st blk.hash (stepSn parentNode blk),
            ∃ n ∈ st, m = updLink blk.hash (stepSn parentNode blk) n :=
          fun m hm => mem_stepOkState hm
        have hu3 : UniqueH (stepOkState O st blk.hash (stepSn parentNode blk)) :=
          uniqueH_foldl_cacheDel _ _ (uniqueH_map_updLink st blk.hash _ hu)
        have hs3 : SerialInv (stepOkState O st blk.hash (stepSn parentNode blk)) := by
          intro m hm hL
          rcases hmem3 m hm with ⟨n, hn, he⟩
          rcases updLink_cases blk.hash (stepSn parentNode blk) n with ⟨hh, hu2⟩ | ⟨hh, hu2⟩
          · rw [he, hu2]
            exact hsn6
          · rw [he, hu2]
            rw [he, hu2] at hL
            exact hs n hn hL
        have hp3 : ParentLinkedInv (stepOkState O st blk.hash (stepSn parentNode blk)) := by
          intro m hm hL pe hpe hh
          rcases hmem3 m hm with ⟨n, hn, he⟩
          rcases hmem3 pe hpe with ⟨p, hpm, hpe'⟩
          have hmblk : m.blk = n.blk := by rw [he]; exact updLink_blk _ _ _
          have hpblk : pe.blk = p.blk := by rw [hpe']; exact updLink_blk _ _ _
          rcases updLink_cases blk.hash (stepSn parentNode blk) p with ⟨hph, hpu⟩ | ⟨hph, hpu⟩
          · rw [hpe', hpu]
          · rw [hpe', hpu]
            rcases updLink_cases blk.hash (stepSn parentNode blk) n with ⟨hnh, hnu⟩ | ⟨hnh, hnu⟩
            · have hnblk : n.blk = blk := (hit.1 n hn hnh).2
              apply hit.2 p hpm
              rw [← hpblk, hh, hmblk, hnblk]
            · rw [he, hnu] at hL
              exact hp n hn hL p hpm (by rw [← hpblk, hh, hmblk])
        have hchild : ∀ c ∈ stepOkState O st blk.hash (stepSn parentNode blk),
            c.blk.parentHash = blk.hash →
            c ∈ st ∧ c.typ = NType.Single ∧ c.blk.hash ≠ blk.hash := by
          intro c hc hcp
          rcases hmem3 c hc with ⟨cc, hcc, hce⟩
          rcases updLink_cases blk.hash (stepSn parentNode blk) cc with ⟨hh, hu2⟩ | ⟨hh, hu2⟩
          · exfalso
            have hccblk : cc.blk = blk := (hit.1 cc hcc hh).2
            have hcblk : c.blk = cc.blk := by rw [hce]; exact updLink_blk _ _ _
            rw [hcblk, hccblk] at hcp
            exact hppne hcp
          · have hceq : c = cc := by rw [hce, hu2]
            subst hceq
            refine ⟨hcc, ?_, hh⟩
            cases hct : c.typ with
            | Single => rfl
            | Linked =>
              exfalso
              have := hp c hcc hct nd hndMem (by rw [hndHash, hcp])
              rw [hndS] at this
              exact NType.noConfusion this
        refine ⟨⟨hu3, hs3, hp3⟩, ?_, ?_, ?_⟩
        · intro kid hkid
          rcases List.mem_map.mp hkid with ⟨c, hcf, hke⟩
          have hcmem := List.mem_of_mem_filter hcf
          have hcp : c.blk.parentHash = blk.hash := by
            have := List.of_mem_filter hcf
            simpa using this
          obtain ⟨hcSt, hcS, hcNe⟩ := hchild c hcmem hcp
          rw [← hke]
          constructor
          · intro m hm hmh
            rcases hmem3 m hm with ⟨n, hn, he⟩
            have hmblk : m.blk = n.blk := by rw [he]; exact updLink_blk _ _ _
            rcases updLink_cases blk.hash (stepSn parentNode blk) n with ⟨hh, hu2⟩ | ⟨hh, hu2⟩
            · exfalso
              apply hcNe
              rw [← hmh, hmblk, hh]
            · have hme : m = n := by rw [he, hu2]
              have hnc : n = c := uniqueH_eq hu n hn c hcSt (by rw [← hmblk, hmh])
              exact ⟨by rw [hme, hnc]; exact hcS, by rw [hme, hnc]⟩
          · intro m hm hmh
            rcases hmem3 m hm with ⟨n, hn, he⟩
            have hmblk : m.blk = n.blk := by rw [he]; exact updLink_blk _ _ _
            rcases updLink_cases blk.hash (stepSn parentNode blk) n with ⟨hh, hu2⟩ | ⟨hh, hu2⟩
            · rw [he, hu2]
            · exact absurd (by rw [← hmblk, hmh]; exact hcp) hh
        · rw [List.pairwise_map]
          exact (List.Pairwise.filter _ hu3).imp (fun hab => hab)
        · intro it2 h2 hne
          constructor
          · constructor
            · intro m hm hmh
              rcases hmem3 m hm with ⟨n, hn, he⟩
              have hmblk : m.blk = n.blk := by rw [he]; exact updLink_blk _ _ _
              rcases updLink_cases blk.hash (stepSn parentNode blk) n with ⟨hh, hu2⟩ | ⟨hh, hu2⟩
              · exact absurd (by rw [← hmh, hmblk, hh]) (Ne.symm hne)
              · have hme : m = n := by rw [he, hu2]
                have := h2.1 n hn (by rw [← hmblk]; exact hmh)
                exact ⟨by rw [hme]; exact this.1, by rw [hme]; exact this.2⟩
            · intro m hm hmh
              rcases hmem3 m hm with ⟨n, hn, he⟩
              have hmblk : m.blk = n.blk := by rw [he]; exact updLink_blk _ _ _
              rcases updLink_cases blk.hash (stepSn parentNode blk) n with ⟨hh, hu2⟩ | ⟨hh, hu2⟩
              · rw [he, hu2]
              · have hme : m = n := by rw [he, hu2]
                rw [hme]
                exact h2.2 n hn (by rw [← hmblk]; exact hmh)
          · intro kid hkid
            rcases List.mem_map.mp hkid with ⟨c, hcf, hke⟩
            have hcmem := List.mem_of_mem_filter hcf
            have hcp : c.blk.parentHash = blk.hash := by
              have := List.of_mem_filter hcf
              simpa using this
            obtain ⟨hcSt, hcS, hcNe⟩ := hchild c hcmem hcp
            rw [← hke]
            intro hEq
            have hcit := h2.1 c hcSt hEq
            have hpar : it2.1.parentHash = blk.hash := by rw [← hcit.2]; exact hcp
            have hLnd := h2.2 nd hndMem (by rw [hndHash, hpar])
            rw [hndS] at hLnd
            exact NType.noConfusion hLnd
      · rw [aebStep_fail O st blk parentNode nd hfind hlim hver]
        have hshape : ∀ m ∈ cacheDel (cacheSetSerial st blk.hash (stepSn parentNode blk)) blk.hash,
            ∃ n ∈ st, m.blk = n.blk ∧ m.typ = n.typ ∧
              (m.typ = NType.Linked → m.serialNum = n.serialNum) :=
          fun m hm =>
            shape_setSerial st blk.hash (stepSn parentNode blk) hSingle m
              (List.mem_of_mem_filter hm)
        have hu' : UniqueH (cacheDel (cacheSetSerial st blk.hash (stepSn parentNode blk)) blk.hash) :=
          List.Pairwise.filter _ (uniqueH_cacheSetSerial st blk.hash (stepSn parentNode blk) hu)
        obtain ⟨hs', hp'⟩ := cacheInv_of_shape hshape hs hp
        refine ⟨⟨hu', hs', hp'⟩, by simp, by simp, fun it2 h2 _ => ⟨?_, by simp⟩⟩
        exact qItemOK_of_shape
          (fun m hm => (hshape m hm).imp (fun n h => ⟨h.1, h.2.1, h.2.2.1⟩)) h2

theorem aebQueue_nil (O : PobOracle) (fuel : Nat) (st : List CNode) :
    aebQueue O fuel st [] = st := by
  cases fuel <;> rfl

/-- The depth-first child recursion preserves the cache invariant as long as
every queued work item is sound and the queued hashes are pairwise
distinct. -/
theorem aebQueue_inv (O : PobOracle) : ∀ (fuel : Nat) (st : List CNode)
    (q : List (Block × CNode)), CacheInv st → (∀ it ∈ q, QItemOK st it) →
    List.Pairwise (fun a b : Block × CNode => a.1.hash ≠ b.1.hash) q →
    CacheInv (aebQueue O fuel st q) := by
  intro fuel
  induction fuel with
  | zero => intro st q h _ _; exact h
  | succ fuel ih =>
    intro st q hinv hq hpw
    match q with
    | [] => exact hinv
    | (b, par) :: rest =>
      have hhd : QItemOK st (b, par) := hq _ (List.mem_cons_self _ _)
      obtain ⟨hinv', hkids, hkpw, hrest⟩ := aebStep_master O st b par hinv hhd
      show CacheInv (aebQueue O fuel (aebStep O st b par).1 ((aebStep O st b par).2.2 ++ rest))
      apply ih
      · exact hinv'
      · intro it hit2
        rcases List.mem_append.mp hit2 with h | h
        · exact hkids it h
        · have hne : it.1.hash ≠ b.hash :=
            fun he => ((List.pairwise_cons.mp hpw).1 it h) he.symm
          exact (hrest it (hq it (List.mem_cons_of_mem _ h)) hne).1
      · rw [List.pairwise_append]
        refine ⟨hkpw, (List.pairwise_cons.mp hpw).2, ?_⟩
        intro a ha b2 hb2
        have hne : b2.1.hash ≠ b.hash :=
          fun he => ((List.pairwise_cons.mp hpw).1 b2 hb2) he.symm
        exact (hrest b2 (hq b2 (List.mem_cons_of_mem _ hb2)) hne).2 a ha

/-- `handleRecvBlock` preserves the cache invariant whenever the incoming
block is not a stale re-send of the (already pruned) parent of some Linked
node — in a hash-keyed model such a re-send would silently re-parent that
node. -/
theorem handleRecvBlock_inv (O : PobOracle) (fuel : Nat) (st : List CNode) (blk : Block)
    (hinv : CacheInv st)
    (horphan : ∀ n ∈ st, n.typ = NType.Linked → n.blk.parentHash ≠ blk.hash) :
    CacheInv (handleRecvBlock O fuel st blk).1 := by
  obtain ⟨hu, hs, hp⟩ := hinv
  unfold handleRecvBlock
  by_cases hdup : (findNode st blk.hash).isSome
  · rw [if_pos hdup]
    exact ⟨hu, hs, hp⟩
  · rw [if_neg hdup]
    have hfresh : ∀ n ∈ st, n.blk.hash ≠ blk.hash :=
      findNode_none (Option.not_isSome_iff_eq_none.mp hdup)
    by_cases hvb : O.verifyBasics blk = true
    · rw [if_neg (by simp [hvb])]
      have hinv1 : CacheInv (cacheAdd st blk) := by
        refine ⟨?_, ?_, ?_⟩
        · unfold UniqueH cacheAdd
          rw [List.pairwise_append]
          exact ⟨hu, List.pairwise_singleton _ _, fun a ha b hb => by
            rw [List.mem_singleton.mp hb]
            exact hfresh a ha⟩
        · intro n hn hL
          rcases List.mem_append.mp hn with h | h
          · exact hs n h hL
          · rw [List.mem_singleton.mp h] at hL
            exact NType.noConfusion hL
        · intro n hn hL pe hpe hh
          rcases List.mem_append.mp hn with h | h
          · rcases List.mem_append.mp hpe with h2 | h2
            · exact hp n h hL pe h2 hh
            · exfalso
              rw [List.mem_singleton.mp h2] at hh
              exact horphan n h hL hh.symm
          · rw [List.mem_singleton.mp h] at hL
            exact NType.noConfusion hL
      cases hpar : findNode st blk.parentHash with
      | none => simpa only [hpar] using hinv1
      | some parent =>
        simp only [hpar]
        by_cases hpt : parent.typ = NType.Linked
        · rw [if_pos hpt]
          obtain ⟨hparMem, hparHash⟩ := findNode_some hpar
          have hitem : QItemOK (cacheAdd st blk) (blk, parent) := by
            constructor
            · intro n hn hh
              rcases List.mem_append.mp hn with h | h
              · exact absurd hh (hfresh n h)
              · rw [List.mem_singleton.mp h]
                exact ⟨rfl, rfl⟩
            · intro n hn hh
              rcases List.mem_append.mp hn with h | h
              · have : n = parent := uniqueH_eq hu n h parent hparMem (by rw [hh, hparHash])
                rw [this]
                exact hpt
              · exfalso
                rw [List.mem_singleton.mp h] at hh
                exact absurd (hparHash.trans hh.symm) (hfresh parent hparMem)
          show CacheInv (addExistingBlock O fuel (cacheAdd st blk) blk parent).1
          unfold addExistingBlock
          obtain ⟨hinv', hkids, hkpw, _⟩ := aebStep_master O (cacheAdd st blk) blk parent hinv1 hitem
          exact aebQueue_inv O fuel _ _ hinv' hkids hkpw
        · rw [if_neg hpt]
          exact hinv1
    · rw [if_pos (by simp [hvb])]
      exact ⟨hu, hs, hp⟩

/-- `addExistingBlock` returns `errOutOfLimit` exactly when the computed
serial number reaches `blockNumPerWitness`, and in that case the only cache
change is the serial-number write — the node is NOT linked. -/
theorem addExistingBlock_outOfLimit (O : PobOracle) (fuel : Nat) (st : List CNode)
    (blk : Block) (parentNode : CNode) (nd : CNode)
    (hfind : findNode st blk.hash = some nd) :
    ((addExistingBlock O fuel st blk parentNode).2 = some PobErr.outOfLimit ↔
      blockNumPerWitness ≤ stepSn parentNode blk) ∧
    (blockNumPerWitness ≤ stepSn parentNode blk →
      addExistingBlock O fuel st blk parentNode =
        (cacheSetSerial st blk.hash (stepSn parentNode blk), some PobErr.outOfLimit)) := by
  by_cases hlim : blockNumPerWitness ≤ stepSn parentNode blk
  · constructor
    · refine ⟨fun _ => hlim, fun _ => ?_⟩
      unfold addExistingBlock
      rw [aebStep_limit O st blk parentNode nd hfind hlim]
    · intro _
      unfold addExistingBlock
      rw [aebStep_limit O st blk parentNode nd hfind hlim]
      simp [aebQueue_nil]
  · refine ⟨⟨fun hcon => ?_, fun hcon => absurd hcon hlim⟩, fun hcon => absurd hcon hlim⟩
    unfold addExistingBlock at hcon
    by_cases hver : O.committed blk.hash ∨ O.verifyBlock blk
    · rw [aebStep_ok O st blk parentNode nd hfind hlim hver] at hcon
      exact Option.noConfusion hcon
    · rw [aebStep_fail O st blk parentNode nd hfind hlim hver] at hcon
      simp at hcon

/-! ## The claims -/

/-! ### Claim C1 fixtures: a fresh pool with a head, and a live transaction -/

/-- A well-in-date transaction (`Expiration` 100 s in nanoseconds). -/
def txC1 : Tx :=
  { time := 0, expiration := 100000000000, gasPrice := 1, gasLimit := 1, hash := 7 }

/-- The canonical head the pool's fork chain points at. -/
def headC1 : Block :=
  { number := 1, parentHash := 0, witness := "w", time := 1, hash := 5, txs := [] }

/-- An empty pool whose fork chain has a head (so `addTx` can walk the
canonical branch). -/
def poolC1 : TxPoolState :=
  { pendingTx := [], blockList := [],
    forkChain := { newHead := some headC1, oldHead := none, forkBlockHash := none } }

/-- A `tx.VerifySelf` that rejects every transaction. -/
def verifyReject : Tx → Option String := fun _ => some "signature verification failed"

/-- A `tx.VerifySelf` that accepts every transaction. -/
def verifyAccept : Tx → Option String := fun _ => none

/-- Claim C1 (code bug).  tx_pool.go line 169 reads
`if tx.VerifySelf() != nil { pool.addTx(&tx) }`: a transaction whose
signature check FAILS (`VerifySelf` non-nil) is inserted into `pending`,
while a transaction whose signature check succeeds is dropped — the exact
opposite of the spec's (and the evident intended) behaviour.  On a live
transaction and a fresh pool: verification fails, the tx is not timed out
and not on the canonical branch, yet it lands in `pending`; with a
succeeding verifier the pool is left unchanged. -/
theorem claim_C1 :
    (verifyReject txC1).isSome = true ∧
    txTimeOut 0 txC1 = false ∧
    existTxInChain 9 poolC1 txC1.hash headC1 = false ∧
    existTxInPending (processRecvTx verifyReject 0 9 poolC1 (some txC1)) txC1.hash = true ∧
    processRecvTx verifyAccept 0 9 poolC1 (some txC1) = poolC1 := by
  decide

/-! ### Claim C2 fixtures: a tx only the chain store knows -/

/-- A transaction that sits in a stored block but in no pool structure. -/
def txC2 : Tx :=
  { time := 0, expiration := 100000000000, gasPrice := 1, gasLimit := 1, hash := 9 }

/-- The stored block holding `txC2`. -/
def storedC2 : Block :=
  { number := 1, parentHash := 0, witness := "w", time := 1, hash := 5, txs := [txC2] }

/-- A chain whose STORE holds `storedC2`. -/
def chainC2 : PoolChain :=
  { findBlock := fun _ => none, linkedRootParentHash := 0, storeBlocks := [storedC2] }

/-- An empty pool. -/
def poolC2 : TxPoolState :=
  { pendingTx := [], blockList := [],
    forkChain := { newHead := none, oldHead := none, forkBlockHash := none } }

/-- The block `ExistTxs` is queried against. -/
def blkC2 : Block :=
  { number := 2, parentHash := 5, witness := "w", time := 2, hash := 6, txs := [] }

/-- Claim C2, counterexample.  The transaction is in the underlying chain
store, yet `ExistTxs` answers `NotFound`: `existTxInChain` walks only the
pool's own `blockList` and never consults the store. -/
theorem claim_C2_cx :
    storeHasTx chainC2 txC2.hash = true ∧
    ExistTxs 8 poolC2 txC2.hash blkC2 = FRet.NotFound := by
  decide

/-- Claim C2, amended.  `ExistTxs` answers `FoundPending` exactly when the
hash is in the pending map; otherwise `FoundChain` exactly when
`existTxInChain` finds it walking the canonical ancestors recorded in
`blockList` within `filterTime`; otherwise `NotFound`.  No part of the answer
consults the chain store. -/
theorem claim_C2 :
    ∀ (fuel : Nat) (p : TxPoolState) (h : Nat) (blk : Block),
      (ExistTxs fuel p h blk = FRet.FoundPending ↔ existTxInPending p h = true) ∧
      (ExistTxs fuel p h blk = FRet.FoundChain ↔
        (existTxInPending p h = false ∧ existTxInChain fuel p h blk = true)) ∧
      (ExistTxs fuel p h blk = FRet.NotFound ↔
        (existTxInPending p h = false ∧ existTxInChain fuel p h blk = false)) := by
  intro fuel p h blk
  unfold ExistTxs
  by_cases h1 : existTxInPending p h = true <;>
    by_cases h2 : existTxInChain fuel p h blk = true <;>
      simp [h1, h2]

/-! ### Claim C3: the serial-number limit -/

/-- Claim C3.  (a, b): whenever the block is in the cache, `addExistingBlock`
returns `errOutOfLimit` exactly when the computed serial number (0 on a
witness or slot change, parent's + 1 otherwise — that is `stepSn`) reaches
`blockNumPerWitness = 6`, and in that case the only state change is writing
that serial number: the node is rejected before being linked.  (c): the
cache invariant — in particular `SerialInv`, every Linked node's
`serialNum < 6` — is preserved by `handleRecvBlock` (the sole cache writer),
given that the incoming block is not a re-send of the pruned parent of an
existing Linked node (a hash-model artefact). -/
theorem claim_C3 :
    (∀ (O : PobOracle) (fuel : Nat) (st : List CNode) (blk : Block)
        (parentNode nd : CNode), findNode st blk.hash = some nd →
      (((addExistingBlock O fuel st blk parentNode).2 = some PobErr.outOfLimit ↔
          blockNumPerWitness ≤ stepSn parentNode blk) ∧
       (blockNumPerWitness ≤ stepSn parentNode blk →
          addExistingBlock O fuel st blk parentNode =
            (cacheSetSerial st blk.hash (stepSn parentNode blk),
             some PobErr.outOfLimit)))) ∧
    (∀ (O : PobOracle) (fuel : Nat) (st : List CNode) (blk : Block),
      CacheInv st →
      (∀ n ∈ st, n.typ = NType.Linked → n.blk.parentHash ≠ blk.hash) →
      SerialInv (handleRecvBlock O fuel st blk).1 ∧
      CacheInv (handleRecvBlock O fuel st blk).1) :=
  ⟨fun O fuel st blk parentNode nd hfind =>
    addExistingBlock_outOfLimit O fuel st blk parentNode nd hfind,
   fun O fuel st blk hinv horphan =>
    ⟨(handleRecvBlock_inv O fuel st blk hinv horphan).2.1,
     handleRecvBlock_inv O fuel st blk hinv horphan⟩⟩

/-- An oracle that accepts everything and prunes nothing. -/
def oracleC3 : PobOracle :=
  { verifyBasics := fun _ => true, committed := fun _ => false,
    verifyBlock := fun _ => true, libDrop := fun _ => [] }

/-- The Linked root node of the claim C3 witness cache. -/
def rootC3 : CNode :=
  { blk := { number := 1, parentHash := 99, witness := "w", time := 3000000000,
             hash := 1, txs := [] },
    typ := NType.Linked, serialNum := 0 }

/-- The claim C3 witness cache: just the Linked root. -/
def cacheC3 : List CNode := [rootC3]

/-- A block in the root's slot and witness, arriving sixth-in-a-row. -/
def blkC3 : Block :=
  { number := 2, parentHash := 1, witness := "w", time := 3000000001, hash := 2, txs := [] }

/-- A stand-in cache node for `blkC3` (already added, still Single). -/
def nodeC3 : CNode := { blk := blkC3, typ := NType.Single, serialNum := 0 }

/-- The cache with `blkC3` added, for exercising `addExistingBlock`. -/
def cacheC3b : List CNode := [rootC3, nodeC3]

/-- A parent node whose serial number is already 5. -/
def parC3 : CNode :=
  { blk := rootC3.blk, typ := NType.Linked, serialNum := 5 }

theorem claim_C3_witness :
    (addExistingBlock oracleC3 1 cacheC3b blkC3 parC3 =
      (cacheSetSerial cacheC3b blkC3.hash (stepSn parC3 blkC3),
       some PobErr.outOfLimit)) ∧
    SerialInv (handleRecvBlock oracleC3 4 cacheC3 blkC3).1 :=
  ⟨(claim_C3.1 oracleC3 1 cacheC3b blkC3 parC3 nodeC3 (by decide)).2 (by decide),
   (claim_C3.2 oracleC3 4 cacheC3 blkC3
     (by
       refine ⟨?_, ?_, ?_⟩
       · unfold UniqueH cacheC3
         decide
       · unfold SerialInv cacheC3
         decide
       · unfold ParentLinkedInv cacheC3
         decide)
     (by
       unfold cacheC3
       decide)).1⟩

/-! ### Claim C4: duplicate and single blocks -/

/-- An oracle whose `verifyBasics` rejects everything. -/
def oracleC4 : PobOracle :=
  { verifyBasics := fun _ => false, committed := fun _ => false,
    verifyBlock := fun _ => true, libDrop := fun _ => [] }

/-- The claim C4 block (its parent is nowhere in the cache). -/
def blkC4 : Block :=
  { number := 2, parentHash := 55, witness := "w", time := 1, hash := 3, txs := [] }

/-- Claim C4, counterexample.  The parent of `blkC4` is absent from the empty
cache, yet `handleRecvBlock` with a rejecting `verifyBasics` returns
`errVerifyBasics` — not `errSingle` — and does NOT add the block: the spec's
sentence omits the basic-verification precondition. -/
theorem claim_C4_cx :
    findNode ([] : List CNode) blkC4.parentHash = none ∧
    handleRecvBlock oracleC4 3 [] blkC4 ≠ (cacheAdd [] blkC4, some PobErr.single) ∧
    (handleRecvBlock oracleC4 3 [] blkC4).1 = [] ∧
    (handleRecvBlock oracleC4 3 [] blkC4).2 = some PobErr.verifyBasics := by
  decide

/-- Claim C4, amended.  A block whose head hash is already cached is rejected
with `errDuplicate` and the cache is untouched (unconditionally); a block
that passes `verifyBasics` and whose parent is absent from the cache, or
present but not Linked, is added as a Single node and `errSingle` is
returned. -/
theorem claim_C4 :
    (∀ (O : PobOracle) (fuel : Nat) (st : List CNode) (blk : Block),
      (findNode st blk.hash).isSome = true →
      handleRecvBlock O fuel st blk = (st, some PobErr.duplicate)) ∧
    (∀ (O : PobOracle) (fuel : Nat) (st : List CNode) (blk : Block),
      findNode st blk.hash = none →
      O.verifyBasics blk = true →
      (∀ pn, findNode st blk.parentHash = some pn → pn.typ ≠ NType.Linked) →
      handleRecvBlock O fuel st blk = (cacheAdd st blk, some PobErr.single)) := by
  constructor
  · intro O fuel st blk hdup
    unfold handleRecvBlock
    rw [if_pos hdup]
  · intro O fuel st blk hfind hvb hpn
    unfold handleRecvBlock
    rw [if_neg (by simp [hfind])]
    rw [if_neg (by simp [hvb])]
    cases hpar : findNode st blk.parentHash with
    | none => rfl
    | some pn =>
      simp only [hpar]
      rw [if_neg (hpn pn hpar)]

/-- The cache already holding `blkC4`'s node, for the duplicate case. -/
def cacheC4 : List CNode := [{ blk := blkC4, typ := NType.Single, serialNum := 0 }]

theorem claim_C4_witness :
    handleRecvBlock oracleC3 2 cacheC4 blkC4 = (cacheC4, some PobErr.duplicate) ∧
    handleRecvBlock oracleC3 2 [] blkC4 = (cacheAdd [] blkC4, some PobErr.single) :=
  ⟨claim_C4.1 oracleC3 2 cacheC4 blkC4 (by decide),
   claim_C4.2 oracleC3 2 [] blkC4 (by decide) (by decide)
     (fun pn h => Option.noConfusion h)⟩

/-! ### Claim C5: the NewBlockHash gossip -/

/-- Claim C5.  `doVerifyBlock` broadcasts the `{number, hash}` gossip exactly
when the message is tagged `NewBlock` and `handleRecvBlock` returned success
(nil) or `errSingle`; in every other case — any other error, or a
`SyncBlockResponse` tag — nothing is broadcast. -/
theorem claim_C5 :
    ∀ (O : PobOracle) (fuel : Nat) (st : List CNode) (blk : Block) (p2pType : P2PType),
      (doVerifyBlock O fuel st blk p2pType).2.2 =
        (if p2pType = P2PType.NewBlock ∧
            ((handleRecvBlock O fuel st blk).2 = none ∨
             (handleRecvBlock O fuel st blk).2 = some PobErr.single) then
          [{ number := blk.number, hash := blk.hash }]
        else []) := by
  intro O fuel st blk p2pType
  cases p2pType with
  | NewBlock =>
    unfold doVerifyBlock
    by_cases h1 : (handleRecvBlock O fuel st blk).2 = some PobErr.single <;>
      by_cases h2 : (handleRecvBlock O fuel st blk).2 = none <;>
        simp [h1, h2]
  | SyncBlockResponse =>
    unfold doVerifyBlock
    simp

/-! ### Claim C6: flushing pending on a failed chain change -/

/-- Claim C6.  In the `AddLinkedNode` case of the pool loop: if
`updateForkChain` reports `ForkError` (the fork point could not be found),
or reports `Fork` but `doChainChange` then fails, the whole pending map is
flushed. -/
theorem claim_C6 :
    ∀ (O : PoolChain) (fuel : Nat) (p : TxPoolState) (linkedBlock headNode : Block),
      (∀ p2, updateForkChain O fuel (addBlockP p linkedBlock) headNode =
          (p2, TFork.ForkError) →
        (processLinkedNode O fuel p linkedBlock headNode).pendingTx = []) ∧
      (∀ p2, updateForkChain O fuel (addBlockP p linkedBlock) headNode =
          (p2, TFork.Fork) →
        ∀ p3, doChainChange O fuel p2 = (p3, false) →
        (processLinkedNode O fuel p linkedBlock headNode).pendingTx = []) := by
  intro O fuel p linkedBlock headNode
  constructor
  · intro p2 heq
    simp only [processLinkedNode, heq]
    rfl
  · intro p2 heq p3 heq2
    simp only [processLinkedNode, heq, heq2]
    rfl

/-- The claim C6 chain oracle: an empty store. -/
def chainC6 : PoolChain :=
  { findBlock := fun _ => none, linkedRootParentHash := 0, storeBlocks := [] }

/-- The recorded new head of the claim C6 pool. -/
def nhC6 : Block :=
  { number := 1, parentHash := 0, witness := "w", time := 1, hash := 4, txs := [] }

/-- A pool with one pending transaction and `nhC6` as its recorded head. -/
def poolC6 : TxPoolState :=
  { pendingTx := [(3, { time := 0, expiration := 100000000000, gasPrice := 1,
                        gasLimit := 1, hash := 3 })],
    blockList := [],
    forkChain := { newHead := some nhC6, oldHead := none, forkBlockHash := none } }

/-- The linked block the notification carries. -/
def linkedC6 : Block :=
  { number := 2, parentHash := 4, witness := "w", time := 2, hash := 11, txs := [] }

/-- A head that forks away from `nhC6` with no findable fork point. -/
def headC6a : Block :=
  { number := 2, parentHash := 9, witness := "w", time := 2, hash := 10, txs := [] }

/-- A head that forks with a found fork point, on which the replay then
fails. -/
def headC6b : Block :=
  { number := 2, parentHash := 9, witness := "w", time := 2, hash := 4, txs := [] }

/-- `addBlockP poolC6 linkedC6`, spelled out. -/
def poolC6a : TxPoolState :=
  { poolC6 with blockList := [(11, { txHashes := [], parentHash := 4, cTime := 6 })] }

theorem claim_C6_witness :
    (processLinkedNode chainC6 0 poolC6 linkedC6 headC6a).pendingTx = [] ∧
    (processLinkedNode chainC6 0 poolC6 linkedC6 headC6b).pendingTx = [] :=
  ⟨(claim_C6 chainC6 0 poolC6 linkedC6 headC6a).1
      { poolC6a with forkChain :=
          { newHead := some headC6a, oldHead := some nhC6, forkBlockHash := none } }
      (by decide),
   (claim_C6 chainC6 0 poolC6 linkedC6 headC6b).2
      { poolC6a with forkChain :=
          { newHead := some headC6b, oldHead := some nhC6, forkBlockHash := some 4 } }
      (by decide)
      { poolC6a with forkChain :=
          { newHead := some headC6b, oldHead := some nhC6, forkBlockHash := some 4 } }
      (by decide)⟩

/-! ### Claim C7: the producer's pending snapshot -/

/-- A pool with two pending transactions and a recorded head, for the claim
C7 counterexample. -/
def poolC7 : TxPoolState :=
  { pendingTx :=
      [(3, { time := 5, expiration := 100000000000, gasPrice := 1, gasLimit := 1, hash := 3 }),
       (4, { time := 1, expiration := 100000000000, gasPrice := 2, gasLimit := 1, hash := 4 })],
    blockList := [],
    forkChain := { newHead := some headC1, oldHead := none, forkBlockHash := none } }

/-- Claim C7, counterexample.  The pool's fork chain records a head at
snapshot time, yet the value `PendingTxs` hands the producer carries no
head whatsoever: the Go return type is `(TxsList, error)`.  (The sorting
itself is right: the gasPrice-2 transaction comes first.) -/
theorem claim_C7_cx :
    poolC7.forkChain.newHead ≠ none ∧
    (PendingTxs poolC7 5).head = none ∧
    (PendingTxs poolC7 5).txs =
      [{ time := 1, expiration := 100000000000, gasPrice := 2, gasLimit := 1, hash := 4 },
       { time := 5, expiration := 100000000000, gasPrice := 1, gasLimit := 1, hash := 3 }] := by
  decide

/-- Claim C7, amended.  The snapshot holds at most `maxCnt` transactions, all
drawn from `pending`, sorted by gasPrice descending with ties broken by time
ascending; it is returned with a nil error and NO BlockCache head (the Go
signature is `(TxsList, error)`). -/
theorem claim_C7 :
    ∀ (p : TxPoolState) (maxCnt : Nat),
      (PendingTxs p maxCnt).txs.length ≤ maxCnt ∧
      List.Sorted
        (fun a b : Tx => b.gasPrice < a.gasPrice ∨
          (a.gasPrice = b.gasPrice ∧ a.time ≤ b.time))
        (PendingTxs p maxCnt).txs ∧
      (∀ t ∈ (PendingTxs p maxCnt).txs, t ∈ p.pendingTx.map Prod.snd) ∧
      (PendingTxs p maxCnt).head = none ∧
      (PendingTxs p maxCnt).err = none := by
  intro p maxCnt
  refine ⟨?_, ?_, ?_, rfl, rfl⟩
  · exact List.length_take_le _ _
  · have hsorted := List.sorted_insertionSort txLe (p.pendingTx.map Prod.snd)
    have htake := hsorted.take (n := maxCnt)
    exact htake.imp (fun hab => txLe_iff.mp hab)
  · intro t ht
    have h1 : t ∈ List.insertionSort txLe (p.pendingTx.map Prod.snd) :=
      List.mem_of_mem_take ht
    exact (List.perm_insertionSort txLe _).subset h1

/-! ### Claim C8: the TxRaw round trip -/

/-- The claim C8 counterexample record: empty but for two unrecognized bytes
that happen to encode field 1 (`Time`) = 5. -/
def txC8bad : TxRaw := { TxRaw.empty with unrecognized := [8, 5] }

/-- Claim C8, counterexample.  `Marshal` appends `XXX_unrecognized` verbatim
with no framing, so on decode those bytes are parsed as ordinary fields:
here they fold into `Time`, and the record does not round-trip.  The claim
holds only for well-formed unrecognized data (complete valid fields with
tags above the known range, `WfTxRaw`). -/
theorem claim_C8_cx :
    marshalTxRaw txC8bad = [8, 5] ∧
    unmarshalTxRaw (marshalTxRaw txC8bad) = Except.ok { TxRaw.empty with time := 5 } ∧
    unmarshalTxRaw (marshalTxRaw txC8bad) ≠ Except.ok txC8bad := by
  decide

/-- Claim C8, amended.  For every well-formed `TxRaw` — field values in their
wire ranges and `XXX_unrecognized` holding complete valid fields with numbers
above the message's own (as gogo-protobuf guarantees for data it produced) —
`Unmarshal` undoes `Marshal` exactly, unknown trailing fields included. -/
theorem claim_C8 (m : TxRaw) (h : WfTxRaw m) :
    unmarshalTxRaw (marshalTxRaw m) = Except.ok m :=
  unmarshalTxRaw_roundtrip m h

/-- The witness record's one action. -/
def actC8 : ActionRaw :=
  { contract := [1, 2], actionName := [3], data := [90], unrecognized := [] }

/-- The witness record's one signature. -/
def sigC8 : SignatureRaw :=
  { algorithm := 2, sig := [1], pubKey := [2], unrecognized := [] }

/-- The witness record's publisher signature. -/
def pubC8 : SignatureRaw :=
  { algorithm := 1, sig := [9], pubKey := [10], unrecognized := [] }

/-- A full witness record: negative expiration, an action, a signer, a
signature, a publisher and a genuinely unknown trailing field (number 9). -/
def txC8 : TxRaw :=
  { time := 1000000, expiration := -5, gasLimit := 0, gasPrice := 3,
    actions := [actC8], signers := [[7, 8]], signs := [sigC8],
    publisher := some pubC8,
    unrecognized := encodeUnknownFields [UnknownField.varintF 9 5] }

theorem claim_C8_witness :
    WfTxRaw txC8 ∧ unmarshalTxRaw (marshalTxRaw txC8) = Except.ok txC8 := by
  have hw : WfTxRaw txC8 := by
    refine ⟨by decide, by decide, by decide, by decide, ?_, by decide, ?_, ?_,
      [UnknownField.varintF 9 5], rfl, by decide⟩
    · intro a ha
      have he : a = actC8 := by simpa [txC8] using ha
      subst he
      exact ⟨by decide, by decide, by decide, by decide, [], rfl, by decide⟩
    · intro s hs
      have he : s = sigC8 := by simpa [txC8] using hs
      subst he
      exact ⟨by decide, by decide, by decide, by decide, by decide, [], rfl, by decide⟩
    · intro s hs
      have he : s = pubC8 := by
        have h2 := hs
        simp [txC8] at h2
        exact h2.symm
      subst he
      exact ⟨by decide, by decide, by decide, by decide, by decide, [], rfl, by decide⟩
  exact ⟨hw, claim_C8 txC8 hw⟩

/-! ### Claim C9: the IssueIOST native ABI -/

theorem getBalance_setBalance (db : VMDB) (acc : String) (amount : Int) :
    (db.setBalance acc amount).getBalance acc = amount := by
  unfold VMDB.setBalance VMDB.getBalance
  rw [List.find?_cons_of_pos _ (by simp)]

/-- Claim C9.  `IssueIOST` always returns cost zero; with a nonzero block
number it returns an error and leaves the DB untouched; with block number 0
it sets the target account's balance to the amount and succeeds. -/
theorem claim_C9 :
    ∀ (number : Int) (db : VMDB) (acc : String) (amount : Int),
      (issueIOST number db acc amount).2.1 = Cost0 ∧
      (number ≠ 0 →
        issueIOST number db acc amount = (db, Cost0, some "issue IOST in normal block")) ∧
      (number = 0 →
        issueIOST number db acc amount = (db.setBalance acc amount, Cost0, none) ∧
        (issueIOST number db acc amount).1.getBalance acc = amount) := by
  intro number db acc amount
  by_cases h : number = 0
  · subst h
    refine ⟨by simp [issueIOST], fun hc => absurd rfl hc, fun _ => ?_⟩
    refine ⟨by simp [issueIOST], ?_⟩
    simp only [issueIOST]
    rw [if_neg (by simp)]
    exact getBalance_setBalance db acc amount
  · exact ⟨by simp [issueIOST, h], fun _ => by simp [issueIOST, h], fun hc => absurd hc h⟩

theorem claim_C9_witness :
    issueIOST 3 { balances := [] } "acc" 7 =
      ({ balances := [] }, Cost0, some "issue IOST in normal block") ∧
    (issueIOST 0 { balances := [] } "acc" 7).1.getBalance "acc" = 7 :=
  ⟨(claim_C9 3 { balances := [] } "acc" 7).2.1 (by decide),
   ((claim_C9 0 { balances := [] } "acc" 7).2.2 rfl).2⟩

/-! ### Claim C10: NewKeyPair -/

/-- Claim C10.  Given a generator producing keys of the algorithms' nominal
lengths (32 bytes for Secp256k1, 64 for Ed25519, as the crypto backends do):
a supplied secret key errors exactly when its length is wrong for the chosen
algorithm; a nil secret key is generated fresh and the call succeeds; every
success returns the pair (algo, GetPubkey(seckey), seckey). -/
theorem claim_C10 (gen : Algorithm → List Nat) (gp : Algorithm → List Nat → List Nat)
    (hgen32 : (gen Algorithm.Secp256k1).length = 32)
    (hgen64 : (gen Algorithm.Ed25519).length = 64) :
    (∀ sk algo, (∃ e, NewKeyPair gen gp (some sk) algo = Except.error e) ↔
        ((sk.length ≠ 32 ∧ algo = Algorithm.Secp256k1) ∨
         (sk.length ≠ 64 ∧ algo = Algorithm.Ed25519))) ∧
    (∀ algo, NewKeyPair gen gp none algo =
        Except.ok { algorithm := algo, pubkey := gp algo (gen algo), seckey := gen algo }) ∧
    (∀ sk algo kp, NewKeyPair gen gp (some sk) algo = Except.ok kp →
        kp = { algorithm := algo, pubkey := gp algo sk, seckey := sk }) := by
  refine ⟨?_, ?_, ?_⟩
  · intro sk algo
    by_cases hc : (sk.length ≠ 32 ∧ algo = Algorithm.Secp256k1) ∨
        (sk.length ≠ 64 ∧ algo = Algorithm.Ed25519)
    · refine ⟨fun _ => hc, fun _ => ⟨"seckey length error", ?_⟩⟩
      simp [NewKeyPair, if_pos hc]
    · refine ⟨fun hx => ?_, fun hx => absurd hx hc⟩
      exfalso
      rcases hx with ⟨e, he⟩
      simp [NewKeyPair, if_neg hc] at he
  · intro algo
    cases algo with
    | Secp256k1 => simp [NewKeyPair, hgen32]
    | Ed25519 => simp [NewKeyPair, hgen64]
  · intro sk algo kp h
    by_cases hc : (sk.length ≠ 32 ∧ algo = Algorithm.Secp256k1) ∨
        (sk.length ≠ 64 ∧ algo = Algorithm.Ed25519)
    · simp [NewKeyPair, if_pos hc] at h
    · simp [NewKeyPair, if_neg hc] at h
      exact h.symm

/-- A generator of nominal-length all-zero keys. -/
def genC10 : Algorithm → List Nat
  | Algorithm.Secp256k1 => List.replicate 32 0
  | Algorithm.Ed25519 => List.replicate 64 0

/-- A public-key derivation stub (the identity on the secret key). -/
def gpC10 : Algorithm → List Nat → List Nat := fun _ sk => sk

theorem claim_C10_witness :
    NewKeyPair genC10 gpC10 none Algorithm.Ed25519 =
      Except.ok { algorithm := Algorithm.Ed25519,
                  pubkey := gpC10 Algorithm.Ed25519 (genC10 Algorithm.Ed25519),
                  seckey := genC10 Algorithm.Ed25519 } ∧
    (∃ e, NewKeyPair genC10 gpC10 (some [1, 2, 3]) Algorithm.Secp256k1 = Except.error e) :=
  ⟨(claim_C10 genC10 gpC10 (by decide) (by decide)).2.1 Algorithm.Ed25519,
   ((claim_C10 genC10 gpC10 (by decide) (by decide)).1 [1, 2, 3] Algorithm.Secp256k1).mpr
     (by decide)⟩

end GoIost
